import Mathlib

set_option maxRecDepth 4000

/-!
Verification of the matching-and-publishing pipeline of a news reposting
script (poster.py).  The Python source is shallowly embedded: strings are
Lean strings (lists of characters), floats are rationals, the Discord sink
and the network fetchers are oracles passed in as parameters, and the
persisted JSON state is an explicit structure.  Regular-expression based
text munging from the source is implemented as structural scanners over
character lists that mirror the behaviour of the concrete patterns used
(the patterns in the source are all of a simple prefix/scan form).
-/

namespace Poster

/-! ## Character classes

Python regular expressions in the source use the classes \s (whitespace),
[^a-zA-Z0-9\s], \d and \w, and str.strip / str.split / str.lower.  We model
the whitespace class by the set of code points Python's str.isspace
recognises, and \w by ASCII word characters (all inputs of interest are
ASCII once normalised). -/

def cn (c : Char) : Nat := c.toNat

/-- Whitespace as recognised by Python's \s and str.strip on text strings. -/
def isPySpace (c : Char) : Bool :=
  decide (cn c = 9) || decide (cn c = 10) || decide (cn c = 11) ||
  decide (cn c = 12) || decide (cn c = 13) || decide (cn c = 32) ||
  decide (cn c = 28) || decide (cn c = 29) || decide (cn c = 30) ||
  decide (cn c = 31) || decide (cn c = 133) || decide (cn c = 160) ||
  decide (cn c = 5760) || (decide (8192 ≤ cn c) && decide (cn c ≤ 8202)) ||
  decide (cn c = 8232) || decide (cn c = 8233) || decide (cn c = 8239) ||
  decide (cn c = 8287) || decide (cn c = 12288)

/-- ASCII letters and digits: the class [a-zA-Z0-9]. -/
def isAsciiAlnum (c : Char) : Bool :=
  (decide (48 ≤ cn c) && decide (cn c ≤ 57)) ||
  (decide (65 ≤ cn c) && decide (cn c ≤ 90)) ||
  (decide (97 ≤ cn c) && decide (cn c ≤ 122))

/-- ASCII digit, the class \d restricted to ASCII (only ever applied to
normalised text, which is ASCII). -/
def isDigitCh (c : Char) : Bool := decide (48 ≤ cn c) && decide (cn c ≤ 57)

/-- Word characters for the pattern #\w+ (ASCII scope). -/
def isPyWordChar (c : Char) : Bool := isAsciiAlnum c || decide (cn c = 95)

/-- Lower-casing of a single character, as str.lower acts on the ASCII
range (the only characters surviving normalisation). -/
def pyLowerChar (c : Char) : Char :=
  if 65 ≤ cn c ∧ cn c ≤ 90 then Char.ofNat (cn c + 32) else c

theorem charToNat_ofNat {n : Nat} (h : n < 55296) : cn (Char.ofNat n) = n := by
  have hv : n.isValidChar := Or.inl h
  rw [Char.ofNat, dif_pos hv]
  simp [Char.ofNatAux, cn, Char.toNat, UInt32.toNat]

theorem char_eq_of_cn_eq {a b : Char} (h : cn a = cn b) : a = b := by
  apply Char.ext
  apply UInt32.eq_of_toBitVec_eq
  apply BitVec.eq_of_toNat_eq
  exact h

/-! ## normalize_text (poster.py lines 395-402)

The five stages of normalize_text, in source order:
1. re.sub(r"https?://\S+", " ", s)
2. s.replace("#", " ")
3. s.replace(RIGHT-SINGLE-QUOTE, "'")
4. re.sub(r"[^a-zA-Z0-9\s]", " ", s)
5. re.sub(r"\s+", " ", s).strip().lower()
Each is implemented as a structural scanner over the character list. -/

/-- Protocol prefix length of the pattern https?:// at the head of the
list, requiring at least one following non-space character (for \S+);
none when the pattern does not match here. -/
def urlProtoLen (l : List Char) : Option Nat :=
  if ("https://".toList.isPrefixOf l) then
    match l.drop 8 with
    | [] => none
    | c :: _ => if isPySpace c then none else some 8
  else if ("http://".toList.isPrefixOf l) then
    match l.drop 7 with
    | [] => none
    | c :: _ => if isPySpace c then none else some 7
  else none

/-- Scanner for re.sub(r"https?://\S+", " ", s).  The mode records how the
scanner is positioned: none = ordinary text; some (n+1) = inside the
protocol part of a matched URL with n+1 characters still to skip;
some 0 = inside the \S+ part of a matched URL (skip until whitespace).
The single replacement space is emitted when the match starts. -/
def stripUrlsGo : Option Nat → List Char → List Char
  | _, [] => []
  | some 0, c :: cs =>
    if isPySpace c then c :: stripUrlsGo none cs
    else stripUrlsGo (some 0) cs
  | some (n + 1), _ :: cs => stripUrlsGo (some n) cs
  | none, c :: cs =>
    match urlProtoLen (c :: cs) with
    | some n => ' ' :: stripUrlsGo (some (n - 1)) cs
    | none => c :: stripUrlsGo none cs

def stripUrls (l : List Char) : List Char := stripUrlsGo none l

/-- Stage 2 and 3: replace '#' by a space and the right single quote by an
ASCII apostrophe (the two replacements act on disjoint characters). -/
def replChars (l : List Char) : List Char :=
  l.map (fun c => if c = '#' then ' ' else if c = '’' then '\'' else c)

/-- Stage 4: re.sub(r"[^a-zA-Z0-9\s]", " ", s). -/
def toAlnumSpace (l : List Char) : List Char :=
  l.map (fun c => if isAsciiAlnum c || isPySpace c then c else ' ')

/-- Scanner for re.sub(r"\s+", " ", s): every maximal whitespace run
becomes one space.  The flag records whether the previous character was
part of a whitespace run. -/
def collapseGo : Bool → List Char → List Char
  | _, [] => []
  | prevSpace, c :: cs =>
    if isPySpace c then
      if prevSpace then collapseGo true cs else ' ' :: collapseGo true cs
    else c :: collapseGo false cs

def collapseWs (l : List Char) : List Char := collapseGo false l

/-- Model of str.strip(): drop whitespace from both ends. -/
def pyStripL (l : List Char) : List Char :=
  ((l.dropWhile isPySpace).reverse.dropWhile isPySpace).reverse

/-- Stage 5 lower-casing. -/
def lowerL (l : List Char) : List Char := l.map pyLowerChar

/-- Model of normalize_text (poster.py lines 395-402). -/
def normalize_text (s : String) : String :=
  String.mk (lowerL (pyStripL (collapseWs (toAlnumSpace (replChars (stripUrls s.toList))))))

/-- Model of str.strip() on strings, used for f-string building in the
source (lines 450, 638). -/
def pyStrip (s : String) : String := String.mk (pyStripL s.toList)

/-- Model of str.split() with no separator: split on whitespace runs,
dropping empty pieces.  The accumulator holds the current word reversed. -/
def pySplitGo (cur : List Char) : List Char → List (List Char)
  | [] => if cur.isEmpty then [] else [cur.reverse]
  | c :: cs =>
    if isPySpace c then
      if cur.isEmpty then pySplitGo [] cs else cur.reverse :: pySplitGo [] cs
    else pySplitGo (c :: cur) cs

def pySplit (s : String) : List String :=
  (pySplitGo [] s.toList).map String.mk

/-! ## Word lists and tokenisation (poster.py lines 320-351, 405-431) -/

/-- Model of STOPWORDS (poster.py lines 320-324). -/
def STOPWORDS : List String :=
  ["the", "a", "an", "and", "or", "to", "in", "on", "for", "with", "of", "at", "by",
   "is", "are", "be", "will", "from", "into", "during", "event", "events",
   "pokemon", "pokémon", "go", "pokemongo", "pokemongo’s", "its", "it", "this", "that"]

/-- Model of KEYWORD_BONUS (poster.py lines 326-329). -/
def KEYWORD_BONUS : List String :=
  ["lunar", "valentine", "raid", "shadow", "mega", "community", "pass",
   "spotlight", "go", "tour", "fest", "research", "battle"]

/-- Model of PHRASE_BONUS (poster.py lines 331-338). -/
def PHRASE_BONUS : List String :=
  ["lunar new year", "valentine", "community day", "raid day", "go pass", "spotlight hour"]

/-- Model of NON_POKEMON_WORDS (poster.py lines 346-351). -/
def NON_POKEMON_WORDS : List String :=
  ["raid", "raids", "raidday", "day", "event", "unlock", "ultra",
   "shadow", "mega", "community", "festival", "battle",
   "research", "spotlight", "pass", "bonus", "debut",
   "shiny", "local", "time", "weekend", "boost"]

/-- Test for re.fullmatch(r"\d{4}", t): exactly four digits. -/
def isYear4 (t : String) : Bool :=
  decide (t.toList.length = 4) && t.toList.all isDigitCh

/-- Model of tokens (poster.py lines 405-416): normalise, split on
whitespace, drop tokens of length at most 2, stopwords, and bare
four-digit numbers. -/
def tokens (s : String) : List String :=
  (pySplit (normalize_text s)).filter
    (fun t => !(decide (t.toList.length ≤ 2)) && !(STOPWORDS.contains t) && !(isYear4 t))

/-- Model of jaccard (poster.py lines 419-423) over rational numbers. -/
def jaccard (a b : List String) : ℚ :=
  let sa := a.toFinset
  let sb := b.toFinset
  if sa = ∅ ∨ sb = ∅ then 0
  else ((sa ∩ sb).card : ℚ) / ((sa ∪ sb).card : ℚ)

/-- Attempted match of the pattern /news/([^/?#]+) at the head of the
list: the captured group, when the literal /news/ starts here and is
followed by at least one character outside /?#. -/
def slugAt (l : List Char) : Option (List Char) :=
  if ("/news/".toList.isPrefixOf l) then
    let rest := l.drop 6
    let slug := rest.takeWhile (fun c => !(c = '/' || c = '?' || c = '#'))
    if slug.isEmpty then none else some slug
  else none

/-- Leftmost match for re.search(r"/news/([^/?#]+)", url). -/
def findSlug : List Char → Option (List Char)
  | [] => none
  | c :: cs =>
    match slugAt (c :: cs) with
    | some slug => some slug
    | none => findSlug cs

/-- Model of slug_keywords (poster.py lines 426-431): the slug of the
first /news/ segment with hyphens turned into spaces, tokenised. -/
def slug_keywords (url : String) : List String :=
  match findSlug url.toList with
  | none => []
  | some slug => tokens (String.mk (slug.map (fun c => if c = '-' then ' ' else c)))

/-! ## Direct official URL extraction (poster.py lines 434-440) -/

/-- Attempted match, at the head of the list, of the pattern
https?://(?:www\.)?(?:pokemongo\.com|pokemongolive\.com)/news/[^\s"']+ ;
returns the full matched character run. -/
def officialUrlAt (l : List Char) : Option (List Char) :=
  let proto : Option Nat :=
    if ("https://".toList.isPrefixOf l) then some 8
    else if ("http://".toList.isPrefixOf l) then some 7
    else none
  match proto with
  | none => none
  | some p =>
    let l1 := l.drop p
    let (w, l2) :=
      if ("www.".toList.isPrefixOf l1) then (4, l1.drop 4) else (0, l1)
    let dom : Option Nat :=
      if ("pokemongo.com".toList.isPrefixOf l2) then some 13
      else if ("pokemongolive.com".toList.isPrefixOf l2) then some 17
      else none
    match dom with
    | none => none
    | some d =>
      let l3 := l2.drop d
      if ("/news/".toList.isPrefixOf l3) then
        let l4 := l3.drop 6
        let tailRun := l4.takeWhile (fun c => !(isPySpace c || c = '"' || c = '\''))
        if tailRun.isEmpty then none
        else some (l.take (p + w + d + 6) ++ tailRun)
      else none

/-- Leftmost match of the official-article URL pattern in a text. -/
def findOfficialUrl : List Char → Option (List Char)
  | [] => none
  | c :: cs =>
    match officialUrlAt (c :: cs) with
    | some u => some u
    | none => findOfficialUrl cs

/-- Truncation at the first occurrence of a character: model of
s.split(ch)[0]. -/
def cutAtChar (ch : Char) (l : List Char) : List Char :=
  l.takeWhile (fun c => !(c = ch))

/-- Model of extract_official_url_from_text (poster.py lines 434-440):
the first official news URL in the text, with any query or fragment part
stripped; none when the text contains no such URL. -/
def extract_official_url_from_text (text : String) : Option String :=
  match findOfficialUrl text.toList with
  | none => none
  | some u => some (String.mk (cutAtChar '#' (cutAtChar '?' u)))

/-! ## clean_fb_phrase (poster.py lines 443-465) -/

/-- Index of the first occurrence of pat in l, as py str.find (none for
absent; patterns used in the source are nonempty). -/
def strFindIdx (pat : List Char) : List Char → Option Nat
  | [] => if pat.isEmpty then some 0 else none
  | c :: cs =>
    if pat.isPrefixOf (c :: cs) then some 0
    else (strFindIdx pat cs).map (· + 1)

/-- Model of the cut-marker list (poster.py lines 452-456). -/
def cut_markers : List String :=
  [" Increased ", " increased ",
   "If you're lucky", "if you're lucky",
   "👉", "->", "→", "|", "•", "—"]

/-- One marker application: best = best[:idx].strip() when found. -/
def applyCut (best : List Char) (m : String) : List Char :=
  match strFindIdx m.toList best with
  | none => best
  | some idx => pyStripL (best.take idx)

/-- Scanner for re.sub(r"#\w+", " ", s): a hash followed by at least one
word character is replaced by a space; the flag records being inside the
\w+ run of a match. -/
def hashStripGo : Bool → List Char → List Char
  | _, [] => []
  | true, c :: cs =>
    if isPyWordChar c then hashStripGo true cs
    else if c = '#' && (match cs with | c' :: _ => isPyWordChar c' | [] => false) then
      ' ' :: hashStripGo true cs
    else c :: hashStripGo false cs
  | false, c :: cs =>
    if c = '#' && (match cs with | c' :: _ => isPyWordChar c' | [] => false) then
      ' ' :: hashStripGo true cs
    else c :: hashStripGo false cs

/-- Model of clean_fb_phrase (poster.py lines 443-465) applied to a title
and description pair: join, strip, truncate at each noise marker in turn,
drop hashtags, collapse whitespace. -/
def clean_fb_phrase_raw (title description : String) : String :=
  let raw := pyStripL (title.toList ++ (" " ++ description).toList)
  let best := cut_markers.foldl applyCut raw
  let best := pyStripL (hashStripGo false best)
  let best := pyStripL (collapseWs best)
  String.mk best

/-! ## Records for articles and posts (see spec section 3; the source
uses dicts built in parse_article_metadata and get_facebook_posts). -/

structure Meta where
  title : String
  description : String
  image : Option String
  published : Option String
  url : String
deriving DecidableEq

structure FbPost where
  title : String
  link : String
  description : String
  image_url : Option String
deriving DecidableEq

/-! ## Entity (Pokémon name) extraction (poster.py lines 354-392)

The source builds Python sets and turns them back into lists with
list(set(...)), whose order is an implementation detail of the runtime.
The embedding therefore takes a reorder oracle: any function that turns a
list into some enumeration of its set of elements.  The canonical
instantiation dedupKeepFirst keeps first occurrences. -/

/-- Enumeration of the set of elements of a list keeping first
occurrences (the canonical stand-in for list(set(...))). -/
def dedupKeepFirst (l : List String) : List String :=
  l.foldl (fun acc u => if acc.contains u then acc else acc ++ [u]) []

/-- Model of extract_pokemon_names_from_text (poster.py lines 354-374),
parametrised by the set-enumeration oracle r. -/
def extract_pokemon_names_from_textR (r : List String → List String) (text : String) :
    List String :=
  r ((tokens text).filter
      (fun t => !(decide (t.toList.length < 4)) && !(NON_POKEMON_WORDS.contains t)))

/-- Model of extract_official_pokemon_names (poster.py lines 378-392):
names from the title, the description and the URL slug, deduplicated. -/
def extract_official_pokemon_namesR (r : List String → List String) (meta : Meta) :
    List String :=
  r (extract_pokemon_names_from_textR r meta.title ++
     extract_pokemon_names_from_textR r meta.description ++
     slug_keywords meta.url)

def extract_pokemon_names_from_text : String → List String :=
  extract_pokemon_names_from_textR dedupKeepFirst

def extract_official_pokemon_names : Meta → List String :=
  extract_official_pokemon_namesR dedupKeepFirst

/-! ## combined_match_score (poster.py lines 468-548)

Scores are rationals; the difflib SequenceMatcher ratio (a pure function
of its two strings) is an oracle parameter sim. -/

def MATCH_THRESHOLD : ℚ := 38 / 100

/-- Check for a token being exactly 20xy, the word-bounded year pattern
\b(20\d{2})\b evaluated on normalised text. -/
def isYearTok (t : String) : Bool :=
  match t.toList with
  | [a, b, c, d] => a = '2' && b = '0' && isDigitCh c && isDigitCh d
  | _ => false

/-- First year token of a normalised string: model of
re.search(r"\b(20\d{2})\b", s) for s already normalised (only lowercase
alphanumerics and single spaces, so word boundaries are token edges). -/
def findYear (s : String) : Option String := (pySplit s).find? isYearTok

/-- Contiguous-substring test on character lists. -/
def listInfixB (needle : List Char) : List Char → Bool
  | [] => needle.isEmpty
  | c :: cs => needle.isPrefixOf (c :: cs) || listInfixB needle cs

/-- Infix test on strings (the Python operator in for str). -/
def strInfix (needle hay : String) : Bool :=
  listInfixB needle.toList hay.toList

/-- Model of combined_match_score (poster.py lines 468-548) without its
debug dictionary, parametrised by the reorder oracle and the
SequenceMatcher ratio oracle. -/
def combined_match_scoreR (r : List String → List String) (sim : String → String → ℚ)
    (fb_clean fb_full : String) (off : Meta) : ℚ :=
  let off_title := off.title
  let off_desc := off.description
  let off_url := off.url
  let fb_toks := tokens fb_clean
  let off_toks := tokens (off_title ++ " " ++ off_desc)
  let tok_score := jaccard fb_toks off_toks
  let simv := sim (normalize_text fb_clean) (normalize_text off_title)
  let slug_toks := slug_keywords off_url
  let slug_score := jaccard (tokens fb_clean) slug_toks
  let score := (55 / 100 : ℚ) * tok_score + (35 / 100 : ℚ) * simv
    + (10 / 100 : ℚ) * slug_score
  let score := score + (6 / 100 : ℚ) *
    ((KEYWORD_BONUS.filter (fun kw => fb_toks.contains kw && off_toks.contains kw)).length : ℚ)
  let fb_pokemon := extract_pokemon_names_from_textR r fb_clean
  let off_pokemon := extract_official_pokemon_namesR r off
  let matched_pokemon := fb_pokemon.toFinset ∩ off_pokemon.toFinset
  let score :=
    if !fb_pokemon.isEmpty && !off_pokemon.isEmpty then
      if matched_pokemon ≠ ∅ then
        score + min (25 / 100 : ℚ) ((10 / 100 : ℚ) * (matched_pokemon.card : ℚ))
      else score - 20 / 100
    else score
  let fb_norm := normalize_text fb_clean
  let off_norm := normalize_text off_title
  let score :=
    if decide (30 < fb_norm.toList.length) &&
       (strInfix (String.mk (fb_norm.toList.take 40)) off_norm ||
        strInfix (String.mk (off_norm.toList.take 40)) fb_norm) then
      score + 15 / 100
    else score
  let score :=
    match findYear fb_norm, findYear off_norm with
    | some y1, some y2 => if y1 = y2 then score + 5 / 100 else score
    | _, _ => score
  let fb_norm_full := normalize_text fb_full
  let off_norm_full := normalize_text (off_title ++ " " ++ off_desc)
  let score := score + (8 / 100 : ℚ) *
    ((PHRASE_BONUS.filter
        (fun phrase => strInfix phrase fb_norm_full && strInfix phrase off_norm_full)).length : ℚ)
  max 0 (min score 1)

def combined_match_score : (String → String → ℚ) → String → String → Meta → ℚ :=
  combined_match_scoreR dedupKeepFirst

/-! ## match_fb_to_official (poster.py lines 621-684)

The OCR fallback is disabled by default (ENABLE_OCR_FALLBACK defaults to
0), so ocr_extract_text_from_image_url returns None and is modelled as
the constant none.  The result carries the matched article, its score,
and the reason string from the debug record. -/

def ENABLE_OCR_FALLBACK : Bool := false

/-- Model of ocr_extract_text_from_image_url (poster.py lines 575-618)
under the default configuration: the feature flag is off, so the function
always returns None before touching the network. -/
def ocr_extract_text_from_image_url (_imageUrl : Option String) : Option String :=
  if ENABLE_OCR_FALLBACK then none else none

/-- Best-candidate selection loop of match_fb_to_official (poster.py
lines 640-649): strict improvement over a running best initialised to
0.0, so the earliest candidate wins ties. -/
def bestFold (f : Meta → ℚ) (metas : List Meta) : Option Meta × ℚ :=
  metas.foldl (fun acc m => if f m > acc.2 then (some m, f m) else acc) (none, 0)

/-- Model of match_fb_to_official (poster.py lines 621-684), parametrised
by the reorder oracle, the SequenceMatcher oracle and the one-off article
lookup used for a direct URL that is not in the candidate pool (the
parse_article_metadata network call, none when it raises). -/
def match_fb_to_officialR (r : List String → List String) (sim : String → String → ℚ)
    (fetch : String → Option Meta) (fb : FbPost) (metas : List Meta) :
    Option (Meta × ℚ × String) :=
  let direct :=
    match extract_official_url_from_text fb.title with
    | some u => some u
    | none => extract_official_url_from_text fb.description
  let fromDirect : Option (Meta × ℚ × String) :=
    match direct with
    | none => none
    | some d =>
      match metas.find? (fun m => m.url = d) with
      | some m => some (m, 1, "direct_url")
      | none =>
        match fetch d with
        | some m => some (m, 1, "direct_url_fetched")
        | none => none
  match fromDirect with
  | some res => some res
  | none =>
    let fb_clean := clean_fb_phrase_raw fb.title fb.description
    let fb_full := pyStrip (fb.title ++ " " ++ fb.description)
    let best := bestFold (combined_match_scoreR r sim fb_clean fb_full) metas
    match best.1 with
    | some m =>
      if best.2 ≥ MATCH_THRESHOLD then some (m, best.2, "scored")
      else
        match ocr_extract_text_from_image_url fb.image_url with
        | some _ => none
        | none => none
    | none => none

def match_fb_to_official :
    (String → String → ℚ) → (String → Option Meta) → FbPost → List Meta →
    Option (Meta × ℚ × String) :=
  match_fb_to_officialR dedupKeepFirst

/-! ## Persistent state, sink and events (poster.py lines 58-86, 172-244)

The JSON state file becomes a structure; the threads dict becomes an
association list in insertion order.  The Discord API becomes a sink
oracle: creating a forum thread for an official URL yields a thread id or
an error, posting a reply in a thread yields unit or an error.  Every
sink call is recorded as an event carrying its outcome. -/

structure ThreadInfo where
  thread_id : Nat
  infographic_posted : Bool
deriving DecidableEq

structure PState where
  seen_urls : List String
  seen_fb_posts : List String
  posted_infographics : List String
  threads : List (String × ThreadInfo)
  bootstrapped : Bool
deriving DecidableEq

structure Sink where
  root : String → Except String Nat
  reply : Nat → String → Except String Unit

deriving instance DecidableEq for Except

inductive Event where
  | rootCall (url : String) (result : Except String Nat)
  | replyCall (officialUrl : String) (threadId : Nat) (fbLink : String)
      (result : Except String Unit)
deriving DecidableEq

/-- Configured candidate-list cap (poster.py line 38, default 60). -/
def OFFICIAL_CANDIDATES_LIMIT : Nat := 60

/-- Per-run cap for new official posts (poster.py line 39, default 3). -/
def MAX_OFFICIAL_POSTS_PER_RUN : Nat := 3

/-- Per-run cap for community posts (poster.py line 40, default 5). -/
def MAX_FB_POSTS_PER_RUN : Nat := 5

/-- Debug toggle for keeping unmatched posts unseen (poster.py line 45,
default off). -/
def DEBUG_KEEP_UNMATCHED_FB : Bool := false

/-- Model of the slice xs[-800:]: the last 800 entries. -/
def lastN (n : Nat) (l : List String) : List String := l.drop (l.length - n)

/-- Model of (xs + [u])[-800:], the bounded append used for the seen
lists (poster.py lines 733, 770, 788, 791, 801). -/
def appendCap (l : List String) (u : String) : List String := lastN 800 (l ++ [u])

/-- Model of load_state (poster.py lines 58-80) applied to a previously
saved state: fill defaults and trim the three lists to 800. -/
def load_trim (s : PState) : PState :=
  { s with
    seen_urls := lastN 800 s.seen_urls
    seen_fb_posts := lastN 800 s.seen_fb_posts
    posted_infographics := lastN 800 s.posted_infographics }

/-- Model of load_state when no state file exists (poster.py lines
74-80). -/
def freshState : PState :=
  { seen_urls := [], seen_fb_posts := [], posted_infographics := []
    threads := [], bootstrapped := false }

def threadsLookup (ts : List (String × ThreadInfo)) (u : String) : Option ThreadInfo :=
  (ts.find? (fun p => p.1 = u)).map (·.2)

def threadsInsert (ts : List (String × ThreadInfo)) (u : String) (t : ThreadInfo) :
    List (String × ThreadInfo) := ts ++ [(u, t)]

def threadsSetPosted (ts : List (String × ThreadInfo)) (u : String) :
    List (String × ThreadInfo) :=
  ts.map (fun p => if p.1 = u then (p.1, { p.2 with infographic_posted := true }) else p)

/-- Model of post_official (poster.py lines 172-210): skip when a thread
already exists for the URL, otherwise create one through the sink and
record its handle; a sink error escapes (the caller decides whether it is
caught).  Returns the sink events performed. -/
def post_official (sink : Sink) (meta : Meta) (s : PState) :
    List Event × Except String PState :=
  match threadsLookup s.threads meta.url with
  | some _ => ([], .ok s)
  | none =>
    match sink.root meta.url with
    | .ok tid =>
      ([Event.rootCall meta.url (.ok tid)],
       .ok { s with threads := threadsInsert s.threads meta.url ⟨tid, false⟩ })
    | .error e => ([Event.rootCall meta.url (.error e)], .error e)

/-- Model of post_infographic (poster.py lines 214-244): silently return
when no thread exists for the official URL or when a supplement was
already posted there; otherwise post the reply and, only after the sink
call succeeded, set the infographic_posted flag. -/
def post_infographic (sink : Sink) (official : Meta) (fb : FbPost) (s : PState) :
    List Event × Except String PState :=
  match threadsLookup s.threads official.url with
  | none => ([], .ok s)
  | some t =>
    if t.infographic_posted then ([], .ok s)
    else
      match sink.reply t.thread_id fb.link with
      | .ok _ =>
        ([Event.replyCall official.url t.thread_id fb.link (.ok ())],
         .ok { s with threads := threadsSetPosted s.threads official.url })
      | .error e =>
        ([Event.replyCall official.url t.thread_id fb.link (.error e)], .error e)

/-! ## The orchestrator main (poster.py lines 691-803) -/

/-- Per-run environment: the sink, the article-metadata fetcher (the
parse_article_metadata network call), the SequenceMatcher oracle, the
scraped official candidate URLs, the parsed official metadata cache, the
community feed items and whether the community feed is configured. -/
structure RunEnv where
  sink : Sink
  parseMeta : String → Except String Meta
  sim : String → String → ℚ
  official_urls : List String
  official_metas : List Meta
  fb_posts : List FbPost
  fbEnabled : Bool

/-- Metadata used for one phase-A item (poster.py line 730): the cache
entry for the URL when present, otherwise a fresh fetch that may fail. -/
def official_meta_for (env : RunEnv) (url : String) : Except String Meta :=
  match env.official_metas.find? (fun m => m.url = url) with
  | some m => .ok m
  | none => env.parseMeta url

/-- Phase A (poster.py lines 723-733): post each new official URL.  There
is no try/except around the body of this loop in the source, so the first
error aborts the whole run. -/
def phaseA (env : RunEnv) : List String → PState → List Event × Except String PState
  | [], s => ([], .ok s)
  | url :: rest, s =>
    match official_meta_for env url with
    | .error e => ([], .error e)
    | .ok meta =>
      match post_official env.sink meta s with
      | (evs, .error e) => (evs, .error e)
      | (evs, .ok s1) =>
        let s2 := { s1 with seen_urls := appendCap s1.seen_urls url }
        let (evs2, r) := phaseA env rest s2
        (evs ++ evs2, r)

/-- The common tail of a phase-B iteration once the official item is
ensured (poster.py lines 794-801): try to post the infographic, catching
any failure, then mark the community item as seen.  The events of the
preceding official-first publish are passed through. -/
def phaseBFinish (env : RunEnv) (official : Meta) (fb : FbPost) (evs : List Event)
    (sIn : PState) : List Event × PState :=
  match post_infographic env.sink official fb sIn with
  | (evs2, .ok s') =>
    (evs ++ evs2, { s' with seen_fb_posts := appendCap s'.seen_fb_posts fb.link })
  | (evs2, .error _) =>
    (evs ++ evs2, { sIn with seen_fb_posts := appendCap sIn.seen_fb_posts fb.link })

/-- One phase-B iteration (poster.py lines 761-801): match the community
post; on no match mark it seen (the debug toggle is off); on a match,
post the official first when its URL is not in seen_urls (failures of
that post are caught: the item is marked seen and skipped), then post the
infographic (failures caught), then mark the item seen. -/
def phaseBStep (env : RunEnv) (metas : List Meta) (fb : FbPost) (s : PState) :
    List Event × PState :=
  match match_fb_to_official env.sim (fun u => (env.parseMeta u).toOption) fb metas with
  | none =>
    if DEBUG_KEEP_UNMATCHED_FB then ([], s)
    else ([], { s with seen_fb_posts := appendCap s.seen_fb_posts fb.link })
  | some (official, _score, _reason) =>
    if s.seen_urls.contains official.url then
      phaseBFinish env official fb [] s
    else
      match post_official env.sink official s with
      | (evs, .error _) =>
        (evs, { s with seen_fb_posts := appendCap s.seen_fb_posts fb.link })
      | (evs, .ok s1) =>
        phaseBFinish env official fb evs
          { s1 with seen_urls := appendCap s1.seen_urls official.url }

/-- Phase B loop over the bounded new community items. -/
def phaseB (env : RunEnv) (metas : List Meta) :
    List FbPost → PState → List Event × PState
  | [], s => ([], s)
  | fb :: rest, s =>
    let (evs1, s1) := phaseBStep env metas fb s
    let (evs2, s2) := phaseB env metas rest s1
    (evs1 ++ evs2, s2)

/-- Truthiness of an optional string (Python: bool(x) for x possibly
None or ""). -/
def optTruthy : Option String → Bool
  | none => false
  | some s => !(s = "")

/-- Model of is_infographic_post (poster.py lines 312-313). -/
def is_infographic_post (p : FbPost) : Bool := optTruthy p.image_url

/-- Community feed items of the run: the fetched items when the feed URL
is configured, the empty list otherwise (poster.py line 704). -/
def effectiveFb (env : RunEnv) : List FbPost :=
  if env.fbEnabled then env.fb_posts else []

/-- New community items of a steady run (poster.py lines 748-759):
link-bearing, unseen, attachment-bearing; oldest first; capped. -/
def newFbItems (env : RunEnv) (seen_fb : List String) : List FbPost :=
  (((effectiveFb env).filter (fun p =>
      !(p.link = "") && !(seen_fb.contains p.link) && is_infographic_post p)).reverse).take
    MAX_FB_POSTS_PER_RUN

/-- New official URLs of a steady run (poster.py lines 723-728): unseen,
oldest first, capped. -/
def newOfficialQueue (env : RunEnv) (seen_official : List String) : List String :=
  ((env.official_urls.filter (fun u => !(seen_official.contains u))).reverse).take
    MAX_OFFICIAL_POSTS_PER_RUN

/-- The state a bootstrap run records (poster.py lines 707-715). -/
def bootstrapState (env : RunEnv) (state : PState) : PState :=
  { state with
    seen_urls := (dedupKeepFirst env.official_urls).take OFFICIAL_CANDIDATES_LIMIT
    seen_fb_posts :=
      (((effectiveFb env).filter (fun p => !(p.link = ""))).map (·.link)).take 30
    posted_infographics := []
    bootstrapped := true }

/-- The community half of a steady run (poster.py lines 738-801): skip
when the feed yields nothing or no new infographic posts, otherwise drive
phase B over the bounded new items. -/
def runSteadyB (env : RunEnv) (seen_fb : List String) (s1 : PState) :
    List Event × PState :=
  if (effectiveFb env).isEmpty then ([], s1)
  else if (newFbItems env seen_fb).isEmpty then ([], s1)
  else phaseB env env.official_metas (newFbItems env seen_fb) s1

/-- Model of main (poster.py lines 691-803) for one invocation.  Returns
the sink events of the run and either the state that save_state persisted
(ok) or the error that escaped before any save (error; the state file is
then left as it was).  The official candidate list, metadata cache and
community feed arrive through the environment. -/
def run (env : RunEnv) (saved : PState) : List Event × Except String PState :=
  if !(load_trim saved).bootstrapped then
    ([], .ok (bootstrapState env (load_trim saved)))
  else
    match phaseA env (newOfficialQueue env (load_trim saved).seen_urls)
        (load_trim saved) with
    | (evsA, .error e) => (evsA, .error e)
    | (evsA, .ok s1) =>
      if !env.fbEnabled then (evsA, .ok s1)
      else
        match runSteadyB env (load_trim saved).seen_fb_posts s1 with
        | (evsB, s2) => (evsA ++ evsB, .ok s2)

/-- A sequence of invocations against the same state file: an erroring
run leaves the file untouched (main never reached save_state), a
completed run replaces it. -/
def runMany : List RunEnv → PState → List Event × PState
  | [], saved => ([], saved)
  | env :: rest, saved =>
    match run env saved with
    | (evs1, .ok s1) =>
      match runMany rest s1 with
      | (evs2, s2) => (evs1 ++ evs2, s2)
    | (evs1, .error _) =>
      match runMany rest saved with
      | (evs2, s2) => (evs1 ++ evs2, s2)

/-! ## General helper lemmas -/

theorem foldl_dedup_mem (l : List String) (acc : List String) (t : String) :
    t ∈ l.foldl (fun acc u => if acc.contains u then acc else acc ++ [u]) acc ↔
      t ∈ acc ∨ t ∈ l := by
  induction l generalizing acc with
  | nil => simp
  | cons u l ih =>
    simp only [List.foldl_cons, ih, List.mem_cons]
    by_cases h : acc.contains u
    · simp only [if_pos h]
      constructor
      · tauto
      · rintro (h1 | h2 | h3)
        · tauto
        · subst h2; left; exact List.mem_of_elem_eq_true h
        · tauto
    · simp only [if_neg h, List.mem_append, List.mem_singleton]
      tauto

theorem mem_dedupKeepFirst {t : String} {l : List String} :
    t ∈ dedupKeepFirst l ↔ t ∈ l := by
  unfold dedupKeepFirst
  rw [foldl_dedup_mem]
  simp

theorem toFinset_dedupKeepFirst (l : List String) :
    (dedupKeepFirst l).toFinset = l.toFinset := by
  ext t
  simp [mem_dedupKeepFirst]

/-! ## Claim C2: entity-candidate token hygiene -/

/-- Claim C2, community side and official title/description side: every
entity candidate extracted from free text has length at least 4 and is
outside the non-entity stoplist. -/
theorem extract_text_names_sound {text : String} {t : String}
    (h : t ∈ extract_pokemon_names_from_text text) :
    4 ≤ t.toList.length ∧ t ∉ NON_POKEMON_WORDS := by
  unfold extract_pokemon_names_from_text extract_pokemon_names_from_textR at h
  rw [mem_dedupKeepFirst, List.mem_filter] at h
  obtain ⟨-, hp⟩ := h
  simp only [Bool.and_eq_true, Bool.not_eq_true'] at hp
  constructor
  · have := hp.1
    simp only [decide_eq_false_iff_not, Nat.not_lt] at this
    exact this
  · intro hmem
    have := hp.2
    simp only [List.contains, List.elem_eq_mem, decide_eq_false_iff_not] at this
    exact this hmem

/-- Counterexample to claim C2: for an official article whose URL slug is
mega-raid-day, the official-side entity candidates include the stoplisted
token raid and the length-3 token day, because slug-derived tokens are
only passed through the generic tokeniser (poster.py lines 389, 426-431),
not through the length-4 / stoplist filter of
extract_pokemon_names_from_text. -/
theorem c2_counterexample :
    let m : Meta := ⟨"", "", none, none, "https://pokemongo.com/news/mega-raid-day"⟩
    "raid" ∈ extract_official_pokemon_names m ∧ "raid" ∈ NON_POKEMON_WORDS ∧
      "day" ∈ extract_official_pokemon_names m ∧ "day".toList.length < 4 := by
  constructor
  · decide
  constructor
  · decide
  constructor
  · decide
  · decide

/-- Claim C2 as amended: tokens extracted from the community text and
from the official title and description satisfy the length-4 and stoplist
conditions, but every official-side candidate is only either such a
token or a raw slug keyword, and slug keywords merely have length at
least 3 (the generic tokeniser bound). -/
theorem c2_amended :
    (∀ text t, t ∈ extract_pokemon_names_from_text text →
      4 ≤ t.toList.length ∧ t ∉ NON_POKEMON_WORDS) ∧
    (∀ (m : Meta) t, t ∈ extract_official_pokemon_names m →
      (4 ≤ t.toList.length ∧ t ∉ NON_POKEMON_WORDS) ∨ t ∈ slug_keywords m.url) ∧
    (∀ url t, t ∈ slug_keywords url → 3 ≤ t.toList.length) := by
  refine ⟨fun text t h => extract_text_names_sound h, ?_, ?_⟩
  · intro m t h
    unfold extract_official_pokemon_names extract_official_pokemon_namesR at h
    rw [mem_dedupKeepFirst] at h
    simp only [List.mem_append] at h
    rcases h with (h | h) | h
    · exact Or.inl (extract_text_names_sound h)
    · exact Or.inl (extract_text_names_sound h)
    · exact Or.inr h
  · intro url t h
    unfold slug_keywords at h
    rcases hf : findSlug url.toList with _ | slug
    · rw [hf] at h; simp at h
    · rw [hf] at h
      unfold tokens at h
      rw [List.mem_filter] at h
      obtain ⟨-, hp⟩ := h
      simp only [Bool.and_eq_true, Bool.not_eq_true'] at hp
      have := hp.1
      simp only [decide_eq_false_iff_not, Nat.not_le] at this
      omega

/-- Witness for the amended claim C2 at a concrete input. -/
theorem c2_amended_witness :
    4 ≤ "lilligant".toList.length ∧ "lilligant" ∉ NON_POKEMON_WORDS :=
  c2_amended.1 "Lilligant debut" "lilligant" (by decide)

/-! ## Claim C4: a reply call requires a pre-existing delivery handle -/

/-- Claim C4: whenever post_infographic performs a reply call through the
sink, the state already holds a delivery handle for the matched official
URL at that moment, the reply goes to exactly that handle, and no
supplement had been delivered there yet; conversely, with no handle
recorded no sink call happens at all. -/
theorem c4_reply_requires_handle (sink : Sink) (official : Meta) (fb : FbPost)
    (s : PState) :
    (∀ u tid link res,
        Event.replyCall u tid link res ∈ (post_infographic sink official fb s).1 →
        u = official.url ∧ link = fb.link ∧
          threadsLookup s.threads official.url = some ⟨tid, false⟩) ∧
    (threadsLookup s.threads official.url = none →
        (post_infographic sink official fb s).1 = []) := by
  unfold post_infographic
  rcases h : threadsLookup s.threads official.url with _ | t
  · simp
  · constructor
    · intro u tid link res hmem
      by_cases hp : t.infographic_posted
      · simp [hp] at hmem
      · simp only [hp, Bool.false_eq_true, if_false] at hmem
        rcases hr : sink.reply t.thread_id fb.link with e | v <;>
          rw [hr] at hmem <;>
          simp only [List.mem_singleton, Event.replyCall.injEq] at hmem <;>
          obtain ⟨h1, h2, h3, -⟩ := hmem <;>
          subst h2 <;>
          refine ⟨h1, h3, ?_⟩ <;>
          cases t <;>
          simp_all
    · intro hnone
      simp [h] at hnone

/-- Witness for claim C4 at a concrete state where a handle exists and
the reply succeeds. -/
theorem c4_witness :
    let sink : Sink := ⟨fun _ => .ok 1, fun _ _ => .ok ()⟩
    let official : Meta := ⟨"T", "", none, none, "https://pokemongo.com/news/x"⟩
    let fb : FbPost := ⟨"t", "L", "", some "img"⟩
    let s : PState := ⟨[], [], [], [("https://pokemongo.com/news/x", ⟨7, false⟩)], true⟩
    threadsLookup s.threads official.url = some ⟨7, false⟩ := by
  intro sink official fb s
  exact ((c4_reply_requires_handle sink official fb s).1
    official.url 7 fb.link (.ok ()) (by decide)).2.2

/-! ## Claim C1: failure isolation in phase A (refuted)

The phase-A loop (poster.py lines 723-733) has no try/except around
post_official, unlike the phase-B bodies (lines 785-799): a sink error on
one new official item escapes main and ends the run. -/

/-- Counterexample to claim C1: a steady-state run with two new official
items where the sink fails on the first (oldest) one.  The run aborts
with that error after a single root call; the second queued item
(.../news/a) is never published and phase B never runs, although the
claim requires processing to continue. -/
theorem c1_counterexample :
    let sink : Sink :=
      ⟨fun u => if u = "https://pokemongo.com/news/b" then .error "boom" else .ok 1,
       fun _ _ => .ok ()⟩
    let env : RunEnv :=
      ⟨sink, fun u => .error ("no fetch " ++ u), fun _ _ => 0,
       ["https://pokemongo.com/news/a", "https://pokemongo.com/news/b"],
       [⟨"A", "", none, none, "https://pokemongo.com/news/a"⟩,
        ⟨"B", "", none, none, "https://pokemongo.com/news/b"⟩],
       [], false⟩
    let saved : PState := ⟨[], [], [], [], true⟩
    newOfficialQueue env (load_trim saved).seen_urls =
      ["https://pokemongo.com/news/b", "https://pokemongo.com/news/a"] ∧
    run env saved =
      ([Event.rootCall "https://pokemongo.com/news/b" (.error "boom")], .error "boom") := by
  constructor
  · decide
  · decide

/-- Claim C1 as amended: a sink failure while publishing a new official
item in phase A is not caught.  Whenever the item at the head of the
phase-A queue has no recorded handle and its root publish fails, phaseA
returns that error at once: the remaining queued items produce no sink
calls and the run's state is discarded (main never reaches save_state).
Item-level isolation exists only in phase B. -/
theorem c1_amended (env : RunEnv) (url : String) (rest : List String) (s : PState)
    (meta : Meta) (e : String)
    (hm : official_meta_for env url = .ok meta)
    (hth : threadsLookup s.threads meta.url = none)
    (hfail : env.sink.root meta.url = .error e) :
    phaseA env (url :: rest) s = ([Event.rootCall meta.url (.error e)], .error e) := by
  unfold phaseA post_official
  simp [hm, hth, hfail]

/-- Witness for the amended claim C1 at a concrete environment. -/
theorem c1_amended_witness :
    phaseA
      ⟨⟨fun _ => .error "boom", fun _ _ => .ok ()⟩, fun u => .error ("no fetch " ++ u),
       fun _ _ => 0, [], [⟨"B", "", none, none, "https://pokemongo.com/news/b"⟩], [], false⟩
      ["https://pokemongo.com/news/b", "https://pokemongo.com/news/a"]
      ⟨[], [], [], [], true⟩ =
      ([Event.rootCall "https://pokemongo.com/news/b" (.error "boom")], .error "boom") :=
  c1_amended _ _ _ _ ⟨"B", "", none, none, "https://pokemongo.com/news/b"⟩ "boom"
    (by decide) (by decide) (by decide)

/-! ## Claim C3: official-first publishing in phase B (refuted)

Phase B guards the official-first publish with membership of seen_urls
(poster.py line 784), not with existence of a delivery handle.  After a
bootstrap run every candidate URL is in seen_urls while threads is empty,
so a matched official with no handle is neither published as a root item
nor given a handle, and the reply is silently dropped by post_infographic
(lines 217-220). -/

theorem threadsLookup_insert_self {ts : List (String × ThreadInfo)} {u : String}
    {t : ThreadInfo} (h : threadsLookup ts u = none) :
    threadsLookup (threadsInsert ts u t) u = some t := by
  unfold threadsLookup threadsInsert at *
  rw [List.find?_append]
  rcases hf : ts.find? (fun p => p.1 = u) with _ | p
  · simp [hf]
  · rw [hf] at h
    simp at h

theorem threadsLookup_setPosted (ts : List (String × ThreadInfo)) (u : String) :
    threadsLookup (threadsSetPosted ts u) u =
      (threadsLookup ts u).map (fun t => { t with infographic_posted := true }) := by
  induction ts with
  | nil => rfl
  | cons p ts ih =>
    unfold threadsSetPosted threadsLookup at *
    by_cases hp : p.1 = u
    · simp [hp]
    · simp only [List.map_cons, List.find?_cons, if_neg hp]
      rw [show (decide (p.1 = u)) = false by simp [hp]]
      exact ih

/-- Counterexample to claim C3: a steady run in which the community post
matches an official article (by direct URL) that has no delivery handle
in the state, yet the run performs no sink call at all: the official is
not published as a root item, no handle is recorded, and no reply is
delivered, because the official URL is already in seen_urls (as a
bootstrap run leaves it). -/
theorem c3_counterexample :
    let sink : Sink := ⟨fun _ => .ok 42, fun _ _ => .ok ()⟩
    let fb : FbPost := ⟨"see https://pokemongo.com/news/abc now", "L1", "", some "img"⟩
    let meta : Meta := ⟨"Abc", "", none, none, "https://pokemongo.com/news/abc"⟩
    let env : RunEnv :=
      ⟨sink, fun u => .error ("no fetch " ++ u), fun _ _ => 0, [], [meta], [fb], true⟩
    let saved : PState := ⟨["https://pokemongo.com/news/abc"], [], [], [], true⟩
    match_fb_to_official env.sim (fun u => (env.parseMeta u).toOption) fb [meta] =
        some (meta, 1, "direct_url") ∧
    threadsLookup saved.threads meta.url = none ∧
    run env saved =
      ([], .ok ⟨["https://pokemongo.com/news/abc"], ["L1"], [], [], true⟩) := by
  refine ⟨by decide, by decide, by decide⟩

/-- Claim C3 as amended: the guard of the official-first publish in
phase B is membership of seen_urls, not handle existence.  (a) When the
matched official URL is not in seen_urls and has no handle, a successful
root publish happens first, its handle is recorded, and any reply call of
the step goes to that fresh handle.  (b) When the matched official URL is
already in seen_urls but has no handle, the step performs no sink call at
all: no root publish, no handle recorded, and the reply is dropped. -/
theorem c3_amended :
    (∀ (env : RunEnv) (metas : List Meta) (fb : FbPost) (s : PState)
        (official : Meta) (sc : ℚ) (rsn : String) (tid : Nat),
      match_fb_to_official env.sim (fun u => (env.parseMeta u).toOption) fb metas =
          some (official, sc, rsn) →
      s.seen_urls.contains official.url = false →
      threadsLookup s.threads official.url = none →
      env.sink.root official.url = .ok tid →
      ∃ evs2 s',
        phaseBStep env metas fb s =
          (Event.rootCall official.url (.ok tid) :: evs2, s') ∧
        threadsLookup s'.threads official.url ≠ none ∧
        (∀ tid' link res, Event.replyCall official.url tid' link res ∈ evs2 →
          tid' = tid)) ∧
    (∀ (env : RunEnv) (metas : List Meta) (fb : FbPost) (s : PState)
        (official : Meta) (sc : ℚ) (rsn : String),
      match_fb_to_official env.sim (fun u => (env.parseMeta u).toOption) fb metas =
          some (official, sc, rsn) →
      s.seen_urls.contains official.url = true →
      threadsLookup s.threads official.url = none →
      phaseBStep env metas fb s =
        ([], { s with seen_fb_posts := appendCap s.seen_fb_posts fb.link })) := by
  constructor
  · intro env metas fb s official sc rsn tid hmatch hseen hth hroot
    have hpo : post_official env.sink official s =
        ([Event.rootCall official.url (.ok tid)],
         .ok { s with threads := threadsInsert s.threads official.url ⟨tid, false⟩ }) := by
      unfold post_official
      rw [hth, hroot]
    have hlk :
        threadsLookup
          (threadsInsert s.threads official.url ⟨tid, false⟩) official.url =
          some ⟨tid, false⟩ := threadsLookup_insert_self hth
    have hlk2 :
        threadsLookup
          (threadsSetPosted
            (threadsInsert s.threads official.url ⟨tid, false⟩) official.url)
          official.url = some ⟨tid, true⟩ := by
      rw [threadsLookup_setPosted, hlk]
      rfl
    unfold phaseBStep
    rw [hmatch]
    simp only [hseen, Bool.false_eq_true, if_false, hpo]
    unfold phaseBFinish post_infographic
    simp only [hlk]
    rcases hr : env.sink.reply tid fb.link with e | v <;> simp only [hr]
    · exact ⟨[Event.replyCall official.url tid fb.link (.error e)],
        { seen_urls := appendCap s.seen_urls official.url
          seen_fb_posts := appendCap s.seen_fb_posts fb.link
          posted_infographics := s.posted_infographics
          threads := threadsInsert s.threads official.url ⟨tid, false⟩
          bootstrapped := s.bootstrapped },
        by simp, by simp [hlk], fun tid' link res hmem => by
          simp only [List.mem_singleton, Event.replyCall.injEq] at hmem
          exact hmem.2.1⟩
    · exact ⟨[Event.replyCall official.url tid fb.link (.ok ())],
        { seen_urls := appendCap s.seen_urls official.url
          seen_fb_posts := appendCap s.seen_fb_posts fb.link
          posted_infographics := s.posted_infographics
          threads := threadsSetPosted
            (threadsInsert s.threads official.url ⟨tid, false⟩) official.url
          bootstrapped := s.bootstrapped },
        by simp, by simp [hlk2], fun tid' link res hmem => by
          simp only [List.mem_singleton, Event.replyCall.injEq] at hmem
          exact hmem.2.1⟩
  · intro env metas fb s official sc rsn hmatch hseen hth
    unfold phaseBStep
    rw [hmatch]
    simp only [hseen, if_true]
    unfold phaseBFinish post_infographic
    rw [hth]
    simp

/-- Witness for the amended claim C3, part (a), at a concrete state where
the matched official is unseen and the root publish succeeds. -/
theorem c3_amended_witness :
    let sink : Sink := ⟨fun _ => .ok 42, fun _ _ => .ok ()⟩
    let fb : FbPost := ⟨"see https://pokemongo.com/news/abc now", "L1", "", some "img"⟩
    let meta : Meta := ⟨"Abc", "", none, none, "https://pokemongo.com/news/abc"⟩
    let env : RunEnv :=
      ⟨sink, fun u => .error ("no fetch " ++ u), fun _ _ => 0, [], [meta], [fb], true⟩
    let s : PState := ⟨[], [], [], [], true⟩
    ∃ evs2 s',
      phaseBStep env [meta] fb s =
        (Event.rootCall meta.url (.ok 42) :: evs2, s') ∧
      threadsLookup s'.threads meta.url ≠ none ∧
      (∀ tid' link res, Event.replyCall meta.url tid' link res ∈ evs2 → tid' = 42) := by
  intro sink fb meta env s
  exact c3_amended.1 env [meta] fb s meta 1 "direct_url" 42
    (by decide) (by decide) (by decide) (by decide)

/-! ## Claim C5: bootstrap safety -/

/-- Claim C5: from any saved state with bootstrapped = false, and for any
candidate content, a run performs no sink call, records the deduplicated
official candidate snapshot (capped at the candidate limit) and the
community snapshot (links of the feed items, capped at 30) as seen, sets
bootstrapped = true, persists that state (the ok result is what
save_state writes) and terminates there. -/
theorem c5_bootstrap_publishes_nothing (env : RunEnv) (saved : PState)
    (h : saved.bootstrapped = false) :
    run env saved =
      ([], .ok
        { seen_urls :=
            (dedupKeepFirst env.official_urls).take OFFICIAL_CANDIDATES_LIMIT
          seen_fb_posts :=
            (((if env.fbEnabled then env.fb_posts else []).filter
                (fun p => !(p.link = ""))).map (·.link)).take 30
          posted_infographics := []
          threads := saved.threads
          bootstrapped := true }) := by
  unfold run
  simp [h, load_trim, bootstrapState, effectiveFb]

/-- Witness for claim C5 at a concrete non-bootstrapped state with
candidates present. -/
theorem c5_witness :
    run
      ⟨⟨fun _ => .ok 1, fun _ _ => .ok ()⟩, fun u => .error ("no fetch " ++ u),
       fun _ _ => 0, ["https://pokemongo.com/news/a", "https://pokemongo.com/news/a"],
       [], [⟨"t", "L", "", some "img"⟩, ⟨"t2", "", "", some "img"⟩], true⟩
      ⟨[], [], [], [], false⟩ =
      ([], .ok ⟨["https://pokemongo.com/news/a"], ["L"], [], [], true⟩) := by
  rw [c5_bootstrap_publishes_nothing _ _ (by decide)]
  decide

/-! ## Claim C7: maximum-score selection with first-seen tie break -/

/-- Running maximum of candidate scores starting from an initial value
(the loop of poster.py lines 640-649 tracks exactly this value). -/
def maxScoreFrom (f : Meta → ℚ) (v : ℚ) (l : List Meta) : ℚ :=
  l.foldl (fun a m => max a (f m)) v

def maxScore (f : Meta → ℚ) (l : List Meta) : ℚ := maxScoreFrom f 0 l

theorem maxScoreFrom_init_le (f : Meta → ℚ) (l : List Meta) (v : ℚ) :
    v ≤ maxScoreFrom f v l := by
  induction l generalizing v with
  | nil => simp [maxScoreFrom]
  | cons m l ih =>
    calc v ≤ max v (f m) := le_max_left _ _
    _ ≤ maxScoreFrom f (max v (f m)) l := ih _
    _ = maxScoreFrom f v (m :: l) := rfl

theorem le_maxScoreFrom_of_mem {f : Meta → ℚ} {l : List Meta} {m : Meta}
    (h : m ∈ l) (v : ℚ) : f m ≤ maxScoreFrom f v l := by
  induction l generalizing v with
  | nil => cases h
  | cons a l ih =>
    rcases List.mem_cons.mp h with rfl | h'
    · calc f m ≤ max v (f m) := le_max_right _ _
      _ ≤ maxScoreFrom f (max v (f m)) l := maxScoreFrom_init_le _ _ _
      _ = maxScoreFrom f v (m :: l) := rfl
    · exact ih h' _

theorem maxScoreFrom_attained (f : Meta → ℚ) (l : List Meta) (v : ℚ) :
    maxScoreFrom f v l = v ∨ ∃ m ∈ l, f m = maxScoreFrom f v l := by
  induction l generalizing v with
  | nil => left; rfl
  | cons a l ih =>
    have hstep : maxScoreFrom f v (a :: l) = maxScoreFrom f (max v (f a)) l := rfl
    rw [hstep]
    rcases ih (max v (f a)) with h | ⟨m, hm, hfm⟩
    · rcases max_cases v (f a) with ⟨hmax, -⟩ | ⟨hmax, -⟩
      · left; rw [h, hmax]
      · right
        exact ⟨a, List.mem_cons_self _ _, by rw [h, hmax]⟩
    · right
      exact ⟨m, List.mem_cons_of_mem _ hm, hfm⟩

/-- Characterisation of the best-candidate loop: starting at (b, v), the
final score is the running maximum and the final candidate is the first
one attaining it when it exceeds the start, the start value otherwise. -/
theorem bestFold_characterisation (f : Meta → ℚ) (l : List Meta)
    (b : Option Meta) (v : ℚ) :
    l.foldl (fun acc m => if f m > acc.2 then (some m, f m) else acc) (b, v) =
      ((if maxScoreFrom f v l > v then
          l.find? (fun m => f m = maxScoreFrom f v l) else b),
        maxScoreFrom f v l) := by
  induction l generalizing b v with
  | nil => simp [maxScoreFrom]
  | cons a l ih =>
    have hstep : maxScoreFrom f v (a :: l) = maxScoreFrom f (max v (f a)) l := rfl
    by_cases hva : f a > v
    · have hmax : max v (f a) = f a := max_eq_right hva.le
      rw [List.foldl_cons]
      simp only [if_pos hva]
      rw [ih]
      have hFMge : f a ≤ maxScoreFrom f (f a) l := maxScoreFrom_init_le _ _ _
      rw [hstep, hmax]
      by_cases hEq : f a = maxScoreFrom f (f a) l
      · have hnotgt : ¬ maxScoreFrom f (f a) l > f a := by rw [← hEq]; simp
        rw [if_neg hnotgt]
        have hgt : maxScoreFrom f (f a) l > v := lt_of_lt_of_le hva hFMge
        rw [if_pos hgt]
        have hfind : List.find? (fun m => decide (f m = maxScoreFrom f (f a) l))
            (a :: l) = some a := List.find?_cons_of_pos _ (decide_eq_true hEq)
        rw [hfind]
      · have hlt : f a < maxScoreFrom f (f a) l := lt_of_le_of_ne hFMge hEq
        rw [if_pos hlt]
        have hgt : maxScoreFrom f (f a) l > v := lt_trans hva hlt
        rw [if_pos hgt]
        have hfind : List.find? (fun m => decide (f m = maxScoreFrom f (f a) l))
            (a :: l) = List.find? (fun m => decide (f m = maxScoreFrom f (f a) l)) l :=
          List.find?_cons_of_neg _ (by rw [decide_eq_true_eq]; exact hEq)
        rw [hfind]
    · have hmax : max v (f a) = v := max_eq_left (not_lt.mp hva)
      rw [List.foldl_cons]
      simp only [if_neg hva]
      rw [ih, hstep, hmax]
      by_cases hgt : maxScoreFrom f v l > v
      · rw [if_pos hgt, if_pos hgt]
        have hane : ¬ (f a = maxScoreFrom f v l) := by
          intro hcon
          rw [← hcon] at hgt
          exact hva hgt
        have hfind : List.find? (fun m => decide (f m = maxScoreFrom f v l))
            (a :: l) = List.find? (fun m => decide (f m = maxScoreFrom f v l)) l :=
          List.find?_cons_of_neg _ (by rw [decide_eq_true_eq]; exact hane)
        rw [hfind]
      · rw [if_neg hgt, if_neg hgt]

/-- Clamped scores are nonnegative. -/
theorem combined_match_score_nonneg (sim : String → String → ℚ)
    (fb_clean fb_full : String) (m : Meta) :
    0 ≤ combined_match_score sim fb_clean fb_full m := by
  unfold combined_match_score combined_match_scoreR
  exact le_max_left _ _

/-- Score of a community post against one official candidate, exactly as
match_fb_to_official computes it in its scoring loop (poster.py lines
637-645). -/
def matcherScore (sim : String → String → ℚ) (fb : FbPost) : Meta → ℚ :=
  combined_match_score sim (clean_fb_phrase_raw fb.title fb.description)
    (pyStrip (fb.title ++ " " ++ fb.description))

/-- Claim C7: with no direct-URL shortcut applying, the matcher returns
the maximum-scoring candidate exactly when the maximum score reaches the
configured threshold (and none otherwise), and among candidates attaining
the maximum it returns the earliest one in the list: every candidate
before the returned one scores strictly below the maximum. -/
theorem c7_selection (sim : String → String → ℚ) (fetch : String → Option Meta)
    (fb : FbPost) (metas : List Meta)
    (hne : metas ≠ [])
    (hd1 : extract_official_url_from_text fb.title = none)
    (hd2 : extract_official_url_from_text fb.description = none) :
    (∀ m ∈ metas, matcherScore sim fb m ≤ maxScore (matcherScore sim fb) metas) ∧
    (MATCH_THRESHOLD ≤ maxScore (matcherScore sim fb) metas →
      ∃ m as bs, metas = as ++ m :: bs ∧
        matcherScore sim fb m = maxScore (matcherScore sim fb) metas ∧
        (∀ a ∈ as, matcherScore sim fb a < maxScore (matcherScore sim fb) metas) ∧
        match_fb_to_official sim fetch fb metas =
          some (m, maxScore (matcherScore sim fb) metas, "scored")) ∧
    (maxScore (matcherScore sim fb) metas < MATCH_THRESHOLD →
      match_fb_to_official sim fetch fb metas = none) := by
  set f := matcherScore sim fb with hf
  set M := maxScore f metas with hM
  have hmem : ∀ m ∈ metas, f m ≤ M := fun m hm => le_maxScoreFrom_of_mem hm 0
  have hbest :
      bestFold f metas =
        ((if M > 0 then metas.find? (fun m => f m = M) else none), M) :=
    bestFold_characterisation f metas none 0
  have hmatch :
      match_fb_to_official sim fetch fb metas =
        (match (bestFold f metas).1 with
          | some m =>
            if (bestFold f metas).2 ≥ MATCH_THRESHOLD then
              some (m, (bestFold f metas).2, "scored")
            else none
          | none => none) := by
    unfold match_fb_to_official match_fb_to_officialR
    rw [hd1, hd2]
    rcases hb : (bestFold f metas).1 with _ | m <;>
      simp only [ocr_extract_text_from_image_url, ENABLE_OCR_FALLBACK,
        Bool.false_eq_true, if_false] <;>
      rw [show bestFold (combined_match_scoreR dedupKeepFirst sim
          (clean_fb_phrase_raw fb.title fb.description)
          (pyStrip (fb.title ++ " " ++ fb.description))) metas = bestFold f metas
        from rfl] <;>
      rw [hb]
  refine ⟨hmem, ?_, ?_⟩
  · intro hthr
    have hMpos : M > 0 := lt_of_lt_of_le (by norm_num [MATCH_THRESHOLD]) hthr
    have hfind : ∃ m, metas.find? (fun m => f m = M) = some m := by
      rcases maxScoreFrom_attained f metas 0 with h0 | ⟨m, hm, hfm⟩
      · rw [hM, maxScore] at hMpos
        rw [h0] at hMpos
        exact absurd hMpos (lt_irrefl 0)
      · rcases hsome : metas.find? (fun m => f m = M) with _ | m'
        · rw [List.find?_eq_none] at hsome
          have hfmM : f m = M := by rw [hfm]; rfl
          exact absurd (decide_eq_true hfmM) (hsome m hm)
        · exact ⟨m', rfl⟩
    obtain ⟨m, hm⟩ := hfind
    have hdecomp := List.find?_eq_some.mp hm
    obtain ⟨hpm, as, bs, hsplit, hprev⟩ := hdecomp
    refine ⟨m, as, bs, hsplit, by simpa using hpm, ?_, ?_⟩
    · intro a ha
      have hne' := hprev a ha
      have hmemle : f a ≤ M := hmem a (by rw [hsplit]; simp [ha])
      have : ¬ (f a = M) := by simpa using hne'
      exact lt_of_le_of_ne hmemle this
    · rw [hmatch, hbest]
      simp only [if_pos hMpos, hm]
      rw [if_pos hthr]
  · intro hlt
    rw [hmatch, hbest]
    by_cases hMpos : M > 0
    · simp only [if_pos hMpos]
      rcases hsome : metas.find? (fun m => f m = M) with _ | m'
      · rfl
      · simp only []
        rw [if_neg (not_le.mpr hlt)]
    · simp only [if_neg hMpos]

/-- Witness for claim C7 at a concrete post and candidate list with no
direct URL. -/
theorem c7_witness :
    let fb : FbPost := ⟨"Lunar New Year fun", "L", "", some "img"⟩
    let metas : List Meta := [⟨"T", "", none, none, "u"⟩]
    (∀ m ∈ metas, matcherScore (fun _ _ => 0) fb m ≤
      maxScore (matcherScore (fun _ _ => 0) fb) metas) := by
  intro fb metas
  exact (c7_selection (fun _ _ => 0) (fun _ => none) fb metas (by decide)
    (by decide) (by decide)).1

/-! ## Claim C9: determinism of the matcher

The embedded matcher is a pure function, so repeated calls on the same
(post, candidates) pair are definitionally equal; the one place where the
Python runtime could inject nondeterminism across processes is the
iteration order of list(set(...)) in the entity extraction.  The theorem
shows the matcher's result does not depend on that order: any two
enumeration oracles with the correct underlying set give identical
results (same candidate, same score, same reason). -/

/-- Specification of an enumeration of the set of elements of a list, as
list(set(...)) produces: same underlying set of strings. -/
def ReorderSpec (r : List String → List String) : Prop :=
  ∀ l : List String, (r l).toFinset = l.toFinset

theorem isEmpty_eq_of_toFinset_eq {l1 l2 : List String}
    (h : l1.toFinset = l2.toFinset) : l1.isEmpty = l2.isEmpty := by
  cases l1 with
  | nil =>
    cases l2 with
    | nil => rfl
    | cons b t =>
      exfalso
      have hb : b ∈ (b :: t).toFinset := by simp
      rw [← h] at hb
      simp at hb
  | cons a s =>
    cases l2 with
    | nil =>
      exfalso
      have ha : a ∈ (a :: s).toFinset := by simp
      rw [h] at ha
      simp at ha
    | cons b t => rfl

theorem extract_textR_toFinset {r : List String → List String}
    (hr : ReorderSpec r) (text : String) :
    (extract_pokemon_names_from_textR r text).toFinset =
      ((tokens text).filter
        (fun t => !(decide (t.toList.length < 4)) &&
          !(NON_POKEMON_WORDS.contains t))).toFinset := by
  unfold extract_pokemon_names_from_textR
  exact hr _

theorem extract_officialR_toFinset {r : List String → List String}
    (hr : ReorderSpec r) (m : Meta) :
    (extract_official_pokemon_namesR r m).toFinset =
      ((tokens m.title).filter
        (fun t => !(decide (t.toList.length < 4)) &&
          !(NON_POKEMON_WORDS.contains t))).toFinset ∪
      ((tokens m.description).filter
        (fun t => !(decide (t.toList.length < 4)) &&
          !(NON_POKEMON_WORDS.contains t))).toFinset ∪
      (slug_keywords m.url).toFinset := by
  unfold extract_official_pokemon_namesR
  rw [hr _]
  rw [List.toFinset_append, List.toFinset_append]
  rw [extract_textR_toFinset hr, extract_textR_toFinset hr]

/-- Claim C9: the matcher's result is independent of the enumeration
order used for list(set(...)); in particular (with the canonical oracle
on both sides) two calls on identical input return identical results. -/
theorem c9_match_deterministic (r1 r2 : List String → List String)
    (hr1 : ReorderSpec r1) (hr2 : ReorderSpec r2)
    (sim : String → String → ℚ) (fetch : String → Option Meta)
    (fb : FbPost) (metas : List Meta) :
    match_fb_to_officialR r1 sim fetch fb metas =
      match_fb_to_officialR r2 sim fetch fb metas := by
  have hscore : combined_match_scoreR r1 sim = combined_match_scoreR r2 sim := by
    funext fb_clean fb_full off
    have hA : (extract_pokemon_names_from_textR r1 fb_clean).toFinset =
        (extract_pokemon_names_from_textR r2 fb_clean).toFinset := by
      rw [extract_textR_toFinset hr1, extract_textR_toFinset hr2]
    have hB : (extract_official_pokemon_namesR r1 off).toFinset =
        (extract_official_pokemon_namesR r2 off).toFinset := by
      rw [extract_officialR_toFinset hr1, extract_officialR_toFinset hr2]
    have hAe : (extract_pokemon_names_from_textR r1 fb_clean).isEmpty =
        (extract_pokemon_names_from_textR r2 fb_clean).isEmpty :=
      isEmpty_eq_of_toFinset_eq hA
    have hBe : (extract_official_pokemon_namesR r1 off).isEmpty =
        (extract_official_pokemon_namesR r2 off).isEmpty :=
      isEmpty_eq_of_toFinset_eq hB
    have hAB : (extract_pokemon_names_from_textR r1 fb_clean).toFinset ∩
        (extract_official_pokemon_namesR r1 off).toFinset =
        (extract_pokemon_names_from_textR r2 fb_clean).toFinset ∩
        (extract_official_pokemon_namesR r2 off).toFinset := by
      rw [hA, hB]
    unfold combined_match_scoreR
    simp only [hAB, hAe, hBe]
  unfold match_fb_to_officialR
  rw [hscore]

/-- Witness for claim C9: two genuinely different enumeration oracles,
keep-first order and its reverse, give the same match result on a
concrete input. -/
theorem c9_witness :
    match_fb_to_officialR dedupKeepFirst (fun _ _ => 0) (fun _ => none)
      ⟨"Lilligant is here for Lunar New Year", "L", "", some "img"⟩
      [⟨"Kyurem Raid Day", "", none, none, "https://pokemongo.com/news/kyurem-raid-day"⟩] =
    match_fb_to_officialR (fun l => (dedupKeepFirst l).reverse) (fun _ _ => 0)
      (fun _ => none)
      ⟨"Lilligant is here for Lunar New Year", "L", "", some "img"⟩
      [⟨"Kyurem Raid Day", "", none, none, "https://pokemongo.com/news/kyurem-raid-day"⟩] :=
  c9_match_deterministic dedupKeepFirst (fun l => (dedupKeepFirst l).reverse)
    (fun l => toFinset_dedupKeepFirst l)
    (fun l => by rw [List.toFinset_reverse]; exact toFinset_dedupKeepFirst l)
    (fun _ _ => 0) (fun _ => none)
    ⟨"Lilligant is here for Lunar New Year", "L", "", some "img"⟩
    [⟨"Kyurem Raid Day", "", none, none, "https://pokemongo.com/news/kyurem-raid-day"⟩]

/-! ## Claim C6: at most one supplementary publish per official id

Bookkeeping over the event trace: count of successful reply publishes per
official URL, and the supplementaryDelivered flag read from a state. -/

def isSuccessReply (u : String) : Event → Bool
  | .replyCall v _ _ (.ok _) => v = u
  | _ => false

def successReplies (u : String) (evs : List Event) : Nat :=
  (evs.filter (isSuccessReply u)).length

/-- The supplementaryDelivered flag of the state for an official URL
(false when no handle exists). -/
def flagOf (s : PState) (u : String) : Bool :=
  match threadsLookup s.threads u with
  | some t => t.infographic_posted
  | none => false

/-- Transition relation between an input state and an output state with
the events in between: per official URL, either the flag is unchanged and
no successful reply happened, or the flag flipped from false to true and
exactly one successful reply happened. -/
def Pres (s s' : PState) (evs : List Event) : Prop :=
  ∀ u, (flagOf s' u = flagOf s u ∧ successReplies u evs = 0) ∨
       (flagOf s u = false ∧ flagOf s' u = true ∧ successReplies u evs = 1)

theorem successReplies_append (u : String) (e1 e2 : List Event) :
    successReplies u (e1 ++ e2) = successReplies u e1 + successReplies u e2 := by
  unfold successReplies
  rw [List.filter_append, List.length_append]

theorem successReplies_nil (u : String) : successReplies u [] = 0 := rfl

theorem Pres_refl (s : PState) : Pres s s [] := fun u => Or.inl ⟨rfl, rfl⟩

theorem Pres_trans {s s1 s2 : PState} {e1 e2 : List Event}
    (h1 : Pres s s1 e1) (h2 : Pres s1 s2 e2) : Pres s s2 (e1 ++ e2) := by
  intro u
  rw [successReplies_append]
  rcases h1 u with ⟨hf1, hc1⟩ | ⟨hf1, hf1', hc1⟩
  · rcases h2 u with ⟨hf2, hc2⟩ | ⟨hf2, hf2', hc2⟩
    · exact Or.inl ⟨by rw [hf2, hf1], by omega⟩
    · exact Or.inr ⟨by rw [← hf1, hf2], hf2', by omega⟩
  · rcases h2 u with ⟨hf2, hc2⟩ | ⟨hf2, hf2', hc2⟩
    · exact Or.inr ⟨hf1, by rw [hf2, hf1'], by omega⟩
    · rw [hf1'] at hf2
      cases hf2

/-- Same flags means Pres with no events (used for state updates that do
not touch threads). -/
theorem Pres_of_flag_eq {s s' : PState} (h : ∀ u, flagOf s' u = flagOf s u) :
    Pres s s' [] := fun u => Or.inl ⟨h u, rfl⟩

theorem threadsLookup_insert_lookup (ts : List (String × ThreadInfo)) (url : String)
    (t : ThreadInfo) (u : String) :
    threadsLookup (threadsInsert ts url t) u =
      (match threadsLookup ts u with
       | some x => some x
       | none => if url = u then some t else none) := by
  unfold threadsLookup threadsInsert
  rw [List.find?_append]
  rcases hf : ts.find? (fun p => p.1 = u) with _ | p <;> rw [hf]
  · by_cases hu : url = u <;> simp [List.find?_cons, hu]
  · simp

theorem threadsLookup_setPosted_ne (ts : List (String × ThreadInfo))
    (url u : String) (h : u ≠ url) :
    threadsLookup (threadsSetPosted ts url) u = threadsLookup ts u := by
  induction ts with
  | nil => rfl
  | cons p ts ih =>
    unfold threadsSetPosted threadsLookup at *
    by_cases hp : p.1 = url
    · simp only [List.map_cons, if_pos hp, List.find?_cons]
      have hne : (decide (p.1 = u)) = false := by
        simp only [decide_eq_false_iff_not]
        rw [hp]
        exact fun hcon => h hcon.symm
      rw [hne]
      rw [show (decide (p.1 = u)) = false from hne] at *
      exact ih
    · simp only [List.map_cons, if_neg hp, List.find?_cons]
      rcases hdec : (decide (p.1 = u)) with _ | _
      · exact ih
      · rfl

/-- post_official performs no reply call. -/
theorem post_official_no_reply (sink : Sink) (meta : Meta) (s : PState) (u : String) :
    successReplies u (post_official sink meta s).1 = 0 := by
  unfold post_official
  rcases threadsLookup s.threads meta.url with _ | t
  · rcases sink.root meta.url with e | tid <;> rfl
  · rfl

/-- post_official never changes a supplementaryDelivered flag: it only
ever adds a fresh handle whose flag is false. -/
theorem post_official_flag (sink : Sink) (meta : Meta) (s s' : PState)
    (h : (post_official sink meta s).2 = .ok s') (u : String) :
    flagOf s' u = flagOf s u := by
  unfold post_official at h
  rcases hl : threadsLookup s.threads meta.url with _ | t
  · rw [hl] at h
    rcases hr : sink.root meta.url with e | tid
    · rw [hr] at h
      cases h
    · rw [hr] at h
      simp only [Except.ok.injEq] at h
      subst h
      unfold flagOf
      show (match threadsLookup (threadsInsert s.threads meta.url ⟨tid, false⟩) u with
        | some t => t.infographic_posted | none => false) = _
      rw [threadsLookup_insert_lookup]
      rcases hu : threadsLookup s.threads u with _ | x
      · by_cases he : meta.url = u
        · rw [he] at hl
          rw [hl] at hu
          simp [he]
        · simp [he]
      · simp
  · rw [hl] at h
    simp only [Except.ok.injEq] at h
    subst h
    intros
    rfl

/-- post_infographic satisfies the flag/reply transition relation with
respect to the state the orchestrator keeps (the ok state on success, the
input state when the error is caught). -/
theorem post_infographic_pres (sink : Sink) (official : Meta) (fb : FbPost)
    (s : PState) :
    Pres s
      (match (post_infographic sink official fb s).2 with
        | .ok s' => s' | .error _ => s)
      (post_infographic sink official fb s).1 := by
  unfold post_infographic
  rcases hl : threadsLookup s.threads official.url with _ | t
  · exact Pres_refl s
  · by_cases hp : t.infographic_posted
    · simp only [hp, if_true]
      exact Pres_refl s
    · simp only [hp, Bool.false_eq_true, if_false]
      rcases hr : sink.reply t.thread_id fb.link with e | v
      · intro u
        left
        refine ⟨rfl, ?_⟩
        unfold successReplies isSuccessReply
        simp
      · intro u
        by_cases hu : u = official.url
        · right
          subst hu
          refine ⟨?_, ?_, ?_⟩
          · unfold flagOf
            rw [hl]
            simp [hp]
          · unfold flagOf
            show (match threadsLookup (threadsSetPosted s.threads official.url)
                official.url with
              | some t => t.infographic_posted | none => false) = true
            rw [threadsLookup_setPosted, hl]
            rfl
          · unfold successReplies isSuccessReply
            simp
        · left
          refine ⟨?_, ?_⟩
          · unfold flagOf
            show (match threadsLookup (threadsSetPosted s.threads official.url) u with
              | some t => t.infographic_posted | none => false) = _
            rw [threadsLookup_setPosted_ne _ _ _ hu]
          · unfold successReplies isSuccessReply
            simp only [List.filter_cons, List.filter_nil]
            rw [show (decide (official.url = u)) = false by
              simp only [decide_eq_false_iff_not]
              exact fun hc => hu hc.symm]
            rfl

theorem Pres_congr_right {s s1 s2 : PState} {evs : List Event}
    (h : Pres s s1 evs) (hf : ∀ u, flagOf s2 u = flagOf s1 u) : Pres s s2 evs := by
  intro u
  rcases h u with ⟨a, b⟩ | ⟨a, b, c⟩
  · exact Or.inl ⟨(hf u).trans a, b⟩
  · exact Or.inr ⟨a, (hf u).trans b, c⟩

/-- The phase-B tail phaseBFinish satisfies the flag/reply transition
relation when the events passed through contain no reply. -/
theorem phaseBFinish_pres (env : RunEnv) (official : Meta) (fb : FbPost)
    (evs : List Event) (sIn : PState) (hz : ∀ u, successReplies u evs = 0) :
    Pres sIn (phaseBFinish env official fb evs sIn).2
      (phaseBFinish env official fb evs sIn).1 := by
  have hp := post_infographic_pres env.sink official fb sIn
  unfold phaseBFinish
  rcases hpi : post_infographic env.sink official fb sIn with ⟨evs2, r2⟩
  rw [hpi] at hp
  have hpre : Pres sIn sIn evs := fun u => Or.inl ⟨rfl, hz u⟩
  rcases r2 with e | s'
  · exact Pres_congr_right (Pres_trans hpre (by simpa using hp)) (fun u => rfl)
  · exact Pres_congr_right (Pres_trans hpre (by simpa using hp)) (fun u => rfl)

/-- One phase-B iteration satisfies the flag/reply transition relation:
its seen-list updates never touch flags, its official-first publish never
touches flags, and its reply publish follows post_infographic_pres. -/
theorem phaseBStep_pres (env : RunEnv) (metas : List Meta) (fb : FbPost) (s : PState) :
    Pres s (phaseBStep env metas fb s).2 (phaseBStep env metas fb s).1 := by
  unfold phaseBStep
  rcases match_fb_to_official env.sim (fun u => (env.parseMeta u).toOption) fb metas with
    _ | ⟨official, sc, rsn⟩
  · simp only [DEBUG_KEEP_UNMATCHED_FB, Bool.false_eq_true, if_false]
    exact Pres_of_flag_eq (fun u => rfl)
  · by_cases hc : s.seen_urls.contains official.url
    · simp only [hc, if_true]
      exact phaseBFinish_pres env official fb [] s (fun u => rfl)
    · simp only [hc, Bool.false_eq_true, if_false]
      rcases hpo : post_official env.sink official s with ⟨evs, r⟩
      have hz : ∀ u, successReplies u evs = 0 := by
        intro u
        have := post_official_no_reply env.sink official s u
        rw [hpo] at this
        exact this
      rcases r with e | s1
      · intro u
        exact Or.inl ⟨rfl, hz u⟩
      · have hflag : ∀ u,
            flagOf { s1 with seen_urls := appendCap s1.seen_urls official.url } u =
              flagOf s u := by
          intro u
          exact post_official_flag env.sink official s s1 (by rw [hpo]) u
        exact Pres_trans (Pres_of_flag_eq hflag)
          (phaseBFinish_pres env official fb evs _ hz)

/-- The phase-B loop composes the per-item transitions. -/
theorem phaseB_pres (env : RunEnv) (metas : List Meta) (items : List FbPost)
    (s : PState) :
    Pres s (phaseB env metas items s).2 (phaseB env metas items s).1 := by
  induction items generalizing s with
  | nil => exact Pres_refl s
  | cons fb rest ih =>
    unfold phaseB
    rcases h1 : phaseBStep env metas fb s with ⟨evs1, s1⟩
    have hp1 := phaseBStep_pres env metas fb s
    rw [h1] at hp1
    rcases h2 : phaseB env metas rest s1 with ⟨evs2, s2⟩
    have hp2 := ih s1
    rw [h2] at hp2
    simp only [h1, h2]
    exact Pres_trans hp1 hp2

/-- Phase A performs no reply call. -/
theorem phaseA_no_reply (env : RunEnv) (urls : List String) (s : PState) (u : String) :
    successReplies u (phaseA env urls s).1 = 0 := by
  induction urls generalizing s with
  | nil => rfl
  | cons url rest ih =>
    unfold phaseA
    rcases hm : official_meta_for env url with e | meta
    · simp only [hm]
      rfl
    · simp only [hm]
      rcases hpo : post_official env.sink meta s with ⟨evs, r⟩
      have hno := post_official_no_reply env.sink meta s u
      rw [hpo] at hno
      rcases r with e | s1
      · simp only [hpo]
        exact hno
      · rcases hpa : phaseA env rest { s1 with seen_urls := appendCap s1.seen_urls url }
          with ⟨evs2, r2⟩
        have hrec := ih { s1 with seen_urls := appendCap s1.seen_urls url }
        rw [hpa] at hrec
        simp only [hpo, hpa]
        rw [successReplies_append, hno, hrec]

/-- Phase A never changes a supplementaryDelivered flag. -/
theorem phaseA_flag (env : RunEnv) (urls : List String) (s s' : PState)
    (h : (phaseA env urls s).2 = .ok s') (u : String) :
    flagOf s' u = flagOf s u := by
  induction urls generalizing s with
  | nil =>
    unfold phaseA at h
    simp only [Except.ok.injEq] at h
    subst h
    rfl
  | cons url rest ih =>
    unfold phaseA at h
    rcases hm : official_meta_for env url with e | meta <;> simp only [hm] at h
    · exact Except.noConfusion h
    · rcases hpo : post_official env.sink meta s with ⟨evs, r⟩
      rw [hpo] at h
      rcases r with e | s1
      · exact Except.noConfusion h
      · simp only [] at h
        rcases hpa : phaseA env rest { s1 with seen_urls := appendCap s1.seen_urls url }
          with ⟨evs2, r2⟩
        rw [hpa] at h
        rcases r2 with e2 | s2
        · exact Except.noConfusion h
        · simp only [Except.ok.injEq] at h
          subst h
          have h1 : flagOf s1 u = flagOf s u :=
            post_official_flag env.sink meta s s1 (by rw [hpo]) u
          have h2 : flagOf s2 u =
              flagOf { s1 with seen_urls := appendCap s1.seen_urls url } u := by
            have := ih { s1 with seen_urls := appendCap s1.seen_urls url } (by rw [hpa])
            exact this
          rw [h2]
          exact h1

theorem phaseB_pres_eq {env : RunEnv} {metas : List Meta} {items : List FbPost}
    {s : PState} {evsB : List Event} {s2 : PState}
    (h : phaseB env metas items s = (evsB, s2)) : Pres s s2 evsB := by
  have := phaseB_pres env metas items s
  rw [h] at this
  exact this

theorem phaseA_no_reply_eq {env : RunEnv} {urls : List String} {s : PState}
    {evsA : List Event} {rA : Except String PState}
    (h : phaseA env urls s = (evsA, rA)) (u : String) :
    successReplies u evsA = 0 := by
  have := phaseA_no_reply env urls s u
  rw [h] at this
  exact this

theorem phaseA_flag_eq {env : RunEnv} {urls : List String} {s : PState}
    {evsA : List Event} {s1 : PState}
    (h : phaseA env urls s = (evsA, .ok s1)) (u : String) :
    flagOf s1 u = flagOf s u :=
  phaseA_flag env urls s s1 (by rw [h]) u

theorem runSteadyB_pres_eq {env : RunEnv} {seen_fb : List String} {s1 : PState}
    {evsB : List Event} {s2 : PState}
    (h : runSteadyB env seen_fb s1 = (evsB, s2)) : Pres s1 s2 evsB := by
  unfold runSteadyB at h
  split at h
  · rcases h with ⟨rfl, rfl⟩
    exact Pres_refl s1
  · split at h
    · rcases h with ⟨rfl, rfl⟩
      exact Pres_refl s1
    · exact phaseB_pres_eq h

/-- One whole run satisfies the transition relation between the state it
loaded and the state its caller keeps (the persisted state on completion,
the untouched previous state on an abort). -/
theorem run_pres (env : RunEnv) (saved : PState) :
    Pres saved
      (match (run env saved).2 with | .ok s' => s' | .error _ => saved)
      (run env saved).1 := by
  suffices hsuf : ∀ evs r, run env saved = (evs, r) →
      Pres saved (match r with | .ok s' => s' | .error _ => saved) evs by
    exact hsuf (run env saved).1 (run env saved).2 rfl
  intro evs r hrun
  unfold run at hrun
  split at hrun
  · rcases hrun with ⟨rfl, rfl⟩
    intro u
    exact Or.inl ⟨rfl, rfl⟩
  · split at hrun
    next evsA e heq =>
      rcases hrun with ⟨rfl, rfl⟩
      intro u
      exact Or.inl ⟨rfl, phaseA_no_reply_eq heq u⟩
    next evsA s1 heq =>
      have hAflag : ∀ u, flagOf s1 u = flagOf saved u := by
        intro u
        rw [phaseA_flag_eq heq u]
        rfl
      have hpresA : Pres saved s1 evsA :=
        fun u => Or.inl ⟨hAflag u, phaseA_no_reply_eq heq u⟩
      split at hrun
      · rcases hrun with ⟨rfl, rfl⟩
        exact hpresA
      · split at hrun
        next evsB s2 heq2 =>
          rcases hrun with ⟨rfl, rfl⟩
          exact Pres_trans hpresA (runSteadyB_pres_eq heq2)

/-- Invariant tying a persisted state to the full event history: the
supplementaryDelivered flag of an official URL is true exactly when one
successful reply publish for it has happened, and false exactly when
none has. -/
def FlagInv (s : PState) (evs : List Event) : Prop :=
  ∀ u, (flagOf s u = true ∧ successReplies u evs = 1) ∨
       (flagOf s u = false ∧ successReplies u evs = 0)

theorem FlagInv_step {s s' : PState} {evs evs' : List Event}
    (hInv : FlagInv s evs) (hp : Pres s s' evs') : FlagInv s' (evs ++ evs') := by
  intro u
  rw [successReplies_append]
  rcases hInv u with ⟨hf, hc⟩ | ⟨hf, hc⟩
  · rcases hp u with ⟨pf, pc⟩ | ⟨pf1, pf2, pc⟩
    · exact Or.inl ⟨by rw [pf, hf], by omega⟩
    · rw [hf] at pf1
      cases pf1
  · rcases hp u with ⟨pf, pc⟩ | ⟨pf1, pf2, pc⟩
    · exact Or.inr ⟨by rw [pf, hf], by omega⟩
    · exact Or.inl ⟨pf2, by omega⟩

theorem runMany_flagInv (envs : List RunEnv) :
    ∀ (s : PState) (evs : List Event), FlagInv s evs →
      FlagInv (runMany envs s).2 (evs ++ (runMany envs s).1) := by
  induction envs with
  | nil =>
    intro s evs h
    unfold runMany
    simp only [List.append_nil]
    exact h
  | cons env rest ih =>
    intro s evs h
    have hpres := run_pres env s
    unfold runMany
    rcases hr : run env s with ⟨evs1, r⟩
    rw [hr] at hpres
    rcases r with e | s1
    · rcases hm : runMany rest s with ⟨evs2, s2⟩
      simp only [hm]
      have h1 : FlagInv s (evs ++ evs1) := FlagInv_step h (by simpa using hpres)
      have h2 := ih s (evs ++ evs1) h1
      rw [hm] at h2
      simpa [List.append_assoc] using h2
    · rcases hm : runMany rest s1 with ⟨evs2, s2⟩
      simp only [hm]
      have h1 : FlagInv s1 (evs ++ evs1) := FlagInv_step h (by simpa using hpres)
      have h2 := ih s1 (evs ++ evs1) h1
      rw [hm] at h2
      simpa [List.append_assoc] using h2

/-- Claim C6: starting from the fresh initial state, across any sequence
of runs, at most one supplementary (reply) publish is ever delivered for
any official URL; and whenever the persisted supplementaryDelivered flag
of an official URL is true, exactly one successful reply publish for it
has occurred in the whole history (so the flag is set only after a
supplementary publish actually succeeded). -/
theorem c6_at_most_one_supplement (envs : List RunEnv) (u : String) :
    successReplies u (runMany envs freshState).1 ≤ 1 ∧
    (flagOf (runMany envs freshState).2 u = true →
      successReplies u (runMany envs freshState).1 = 1) := by
  have hInv0 : FlagInv freshState [] := by
    intro u
    exact Or.inr ⟨rfl, rfl⟩
  have h := runMany_flagInv envs freshState [] hInv0
  rw [List.nil_append] at h
  rcases h u with ⟨hf, hc⟩ | ⟨hf, hc⟩
  · exact ⟨by omega, fun _ => hc⟩
  · refine ⟨by omega, fun hcon => ?_⟩
    rw [hf] at hcon
    cases hcon

/-- Witness for claim C6 at a concrete two-run sequence whose second run
delivers a supplement. -/
theorem c6_witness :
    let sink : Sink := ⟨fun _ => .ok 42, fun _ _ => .ok ()⟩
    let fb : FbPost := ⟨"see https://pokemongo.com/news/abc now", "L1", "", some "img"⟩
    let meta : Meta := ⟨"Abc", "", none, none, "https://pokemongo.com/news/abc"⟩
    let env : RunEnv :=
      ⟨sink, fun u => .error ("no fetch " ++ u), fun _ _ => 0, [], [meta], [fb], true⟩
    successReplies "https://pokemongo.com/news/abc"
        (runMany [env, env] freshState).1 ≤ 1 := by
  intro sink fb meta env
  exact (c6_at_most_one_supplement [env, env] "https://pokemongo.com/news/abc").1

/-! ## Claim C8: bounded seen lists -/

theorem lastN_length_le (n : Nat) (l : List String) : (lastN n l).length ≤ n := by
  unfold lastN
  rw [List.length_drop]
  omega

theorem appendCap_length_le (l : List String) (u : String) :
    (appendCap l u).length ≤ 800 := lastN_length_le 800 _

theorem lastN_suffix (n : Nat) (l : List String) : lastN n l <:+ l :=
  List.drop_suffix _ _

theorem appendCap_suffix (l : List String) (u : String) :
    appendCap l u <:+ l ++ [u] := List.drop_suffix _ _

/-- Both seen lists within their 800-entry capacity. -/
def Bounded (s : PState) : Prop :=
  s.seen_urls.length ≤ 800 ∧ s.seen_fb_posts.length ≤ 800

theorem post_official_seen (sink : Sink) (meta : Meta) (s s' : PState)
    (h : (post_official sink meta s).2 = .ok s') :
    s'.seen_urls = s.seen_urls ∧ s'.seen_fb_posts = s.seen_fb_posts := by
  unfold post_official at h
  rcases hl : threadsLookup s.threads meta.url with _ | t <;> rw [hl] at h
  · rcases hr : sink.root meta.url with e | tid <;> rw [hr] at h
    · cases h
    · simp only [Except.ok.injEq] at h
      subst h
      exact ⟨rfl, rfl⟩
  · simp only [Except.ok.injEq] at h
    subst h
    exact ⟨rfl, rfl⟩

theorem phaseA_bounded (env : RunEnv) (urls : List String) :
    ∀ (s s1 : PState), (phaseA env urls s).2 = .ok s1 → Bounded s → Bounded s1 := by
  induction urls with
  | nil =>
    intro s s1 h hb
    unfold phaseA at h
    simp only [Except.ok.injEq] at h
    subst h
    exact hb
  | cons url rest ih =>
    intro s s1 h hb
    unfold phaseA at h
    rcases hm : official_meta_for env url with e | meta <;> simp only [hm] at h
    · exact Except.noConfusion h
    · rcases hpo : post_official env.sink meta s with ⟨evs, r⟩
      rw [hpo] at h
      rcases r with e | sm
      · exact Except.noConfusion h
      · simp only [] at h
        rcases hpa : phaseA env rest { sm with seen_urls := appendCap sm.seen_urls url }
          with ⟨evs2, r2⟩
        rw [hpa] at h
        rcases r2 with e2 | s2
        · exact Except.noConfusion h
        · simp only [Except.ok.injEq] at h
          subst h
          have hseen := post_official_seen env.sink meta s sm (by rw [hpo])
          refine ih _ _ (by rw [hpa]) ⟨appendCap_length_le _ _, ?_⟩
          show sm.seen_fb_posts.length ≤ 800
          rw [hseen.2]
          exact hb.2

theorem post_infographic_seen (sink : Sink) (official : Meta) (fb : FbPost)
    (s s' : PState) (h : (post_infographic sink official fb s).2 = .ok s') :
    s'.seen_urls = s.seen_urls ∧ s'.seen_fb_posts = s.seen_fb_posts := by
  unfold post_infographic at h
  rcases hl : threadsLookup s.threads official.url with _ | t <;> rw [hl] at h
  · simp only [Except.ok.injEq] at h
    subst h
    exact ⟨rfl, rfl⟩
  · by_cases hp : t.infographic_posted
    · simp only [hp, if_true, Except.ok.injEq] at h
      subst h
      exact ⟨rfl, rfl⟩
    · simp only [hp, Bool.false_eq_true, if_false] at h
      rcases hr : sink.reply t.thread_id fb.link with e | v <;> rw [hr] at h
      · exact Except.noConfusion h
      · simp only [Except.ok.injEq] at h
        subst h
        exact ⟨rfl, rfl⟩

theorem phaseBFinish_bounded (env : RunEnv) (official : Meta) (fb : FbPost)
    (evs : List Event) (sIn : PState) (h1 : sIn.seen_urls.length ≤ 800) :
    Bounded (phaseBFinish env official fb evs sIn).2 := by
  unfold phaseBFinish
  rcases hpi : post_infographic env.sink official fb sIn with ⟨evs2, r2⟩
  rcases r2 with e | s'
  · exact ⟨h1, appendCap_length_le _ _⟩
  · have := post_infographic_seen env.sink official fb sIn s' (by rw [hpi])
    exact ⟨by rw [this.1]; exact h1, appendCap_length_le _ _⟩

theorem phaseBStep_bounded (env : RunEnv) (metas : List Meta) (fb : FbPost)
    (s : PState) (hb : Bounded s) : Bounded (phaseBStep env metas fb s).2 := by
  unfold phaseBStep
  rcases match_fb_to_official env.sim (fun u => (env.parseMeta u).toOption) fb metas with
    _ | ⟨official, sc, rsn⟩
  · simp only [DEBUG_KEEP_UNMATCHED_FB, Bool.false_eq_true, if_false]
    exact ⟨hb.1, appendCap_length_le _ _⟩
  · by_cases hc : s.seen_urls.contains official.url
    · simp only [hc, if_true]
      exact phaseBFinish_bounded env official fb [] s hb.1
    · simp only [hc, Bool.false_eq_true, if_false]
      rcases hpo : post_official env.sink official s with ⟨evs, r⟩
      rcases r with e | s1
      · exact ⟨hb.1, appendCap_length_le _ _⟩
      · exact phaseBFinish_bounded env official fb evs _ (appendCap_length_le _ _)

theorem phaseB_bounded (env : RunEnv) (metas : List Meta) (items : List FbPost) :
    ∀ (s : PState), Bounded s → Bounded (phaseB env metas items s).2 := by
  induction items with
  | nil => intro s hb; exact hb
  | cons fb rest ih =>
    intro s hb
    unfold phaseB
    rcases h1 : phaseBStep env metas fb s with ⟨evs1, s1⟩
    have hb1 := phaseBStep_bounded env metas fb s hb
    rw [h1] at hb1
    rcases h2 : phaseB env metas rest s1 with ⟨evs2, s2⟩
    have hb2 := ih s1 hb1
    rw [h2] at hb2
    simp only [h1, h2]
    exact hb2

theorem runSteadyB_bounded (env : RunEnv) (seen_fb : List String) (s1 : PState)
    (hb : Bounded s1) : Bounded (runSteadyB env seen_fb s1).2 := by
  unfold runSteadyB
  split
  · exact hb
  split
  · exact hb
  · exact phaseB_bounded env env.official_metas _ s1 hb

theorem run_bounded (env : RunEnv) (saved : PState) (s' : PState)
    (h : (run env saved).2 = .ok s') : Bounded s' := by
  have hload : Bounded (load_trim saved) :=
    ⟨lastN_length_le 800 _, lastN_length_le 800 _⟩
  unfold run at h
  split at h
  · simp only [Except.ok.injEq] at h
    subst h
    constructor
    · calc ((dedupKeepFirst env.official_urls).take
            OFFICIAL_CANDIDATES_LIMIT).length ≤ OFFICIAL_CANDIDATES_LIMIT :=
          List.length_take_le _ _
      _ ≤ 800 := by norm_num [OFFICIAL_CANDIDATES_LIMIT]
    · calc ((((effectiveFb env).filter (fun p => !(p.link = ""))).map
            (·.link)).take 30).length ≤ 30 := List.length_take_le _ _
      _ ≤ 800 := by norm_num
  · split at h
    next evsA e heq => exact Except.noConfusion h
    next evsA s1 heq =>
      have hb1 : Bounded s1 := phaseA_bounded env _ _ s1 (by rw [heq]) hload
      split at h
      · simp only [Except.ok.injEq] at h
        subst h
        exact hb1
      · split at h
        next evsB s2 heq2 =>
          simp only [Except.ok.injEq] at h
          subst h
          have := runSteadyB_bounded env (load_trim saved).seen_fb_posts s1 hb1
          rw [heq2] at this
          exact this

/-- Claim C8: after any sequence of runs starting from the fresh state,
neither seen list ever exceeds 800 entries in the persisted state, and
every bounded insertion evicts from the front only (the kept portion is a
suffix of the appended list, so the oldest entries go first); loading
likewise keeps only a suffix. -/
theorem c8_bounded_memory (envs : List RunEnv) :
    (runMany envs freshState).2.seen_urls.length ≤ 800 ∧
    (runMany envs freshState).2.seen_fb_posts.length ≤ 800 ∧
    (∀ l u, appendCap l u <:+ l ++ [u]) ∧
    (∀ n l, lastN n l <:+ l) := by
  have hmain : ∀ (es : List RunEnv) (s : PState), Bounded s →
      Bounded (runMany es s).2 := by
    intro es
    induction es with
    | nil => intro s hb; exact hb
    | cons env rest ih =>
      intro s hb
      unfold runMany
      rcases hr : run env s with ⟨evs1, r⟩
      rcases r with e | s1
      · rcases hm : runMany rest s with ⟨evs2, s2⟩
        simp only [hm]
        have := ih s hb
        rw [hm] at this
        exact this
      · rcases hm : runMany rest s1 with ⟨evs2, s2⟩
        simp only [hm]
        have hb1 : Bounded s1 := run_bounded env s s1 (by rw [hr])
        have := ih s1 hb1
        rw [hm] at this
        exact this
  have hfresh : Bounded freshState := ⟨by norm_num [freshState], by norm_num [freshState]⟩
  have := hmain envs freshState hfresh
  exact ⟨this.1, this.2, appendCap_suffix, lastN_suffix⟩

/-! ## Claim C10: normalize_text is idempotent and produces clean text

Character-class groundwork: the output alphabet of normalize_text is
lowercase ASCII letters, ASCII digits and the single space. -/

def GoodChar (c : Char) : Prop :=
  (97 ≤ cn c ∧ cn c ≤ 122) ∨ (48 ≤ cn c ∧ cn c ≤ 57) ∨ cn c = 32

/-- No two adjacent spaces. -/
def NoTwo (l : List Char) : Prop :=
  List.Chain' (fun a b => ¬(a = ' ' ∧ b = ' ')) l

theorem cn_space : cn ' ' = 32 := rfl

theorem eq_space_iff {c : Char} : c = ' ' ↔ cn c = 32 := by
  constructor
  · intro h
    rw [h]
    rfl
  · intro h
    exact char_eq_of_cn_eq (by rw [h]; rfl)

theorem isAsciiAlnum_iff {c : Char} :
    isAsciiAlnum c = true ↔
      (48 ≤ cn c ∧ cn c ≤ 57) ∨ (65 ≤ cn c ∧ cn c ≤ 90) ∨
      (97 ≤ cn c ∧ cn c ≤ 122) := by
  unfold isAsciiAlnum
  simp only [Bool.or_eq_true, Bool.and_eq_true, decide_eq_true_eq]
  omega

theorem isPySpace_iff {c : Char} :
    isPySpace c = true ↔
      cn c = 9 ∨ cn c = 10 ∨ cn c = 11 ∨ cn c = 12 ∨ cn c = 13 ∨ cn c = 32 ∨
      cn c = 28 ∨ cn c = 29 ∨ cn c = 30 ∨ cn c = 31 ∨ cn c = 133 ∨ cn c = 160 ∨
      cn c = 5760 ∨ (8192 ≤ cn c ∧ cn c ≤ 8202) ∨ cn c = 8232 ∨ cn c = 8233 ∨
      cn c = 8239 ∨ cn c = 8287 ∨ cn c = 12288 := by
  unfold isPySpace
  simp only [Bool.or_eq_true, Bool.and_eq_true, decide_eq_true_eq]
  omega

theorem not_pyspace_of_alnum {c : Char} (h : isAsciiAlnum c = true) :
    isPySpace c = false := by
  rw [isAsciiAlnum_iff] at h
  rw [Bool.eq_false_iff]
  intro hcon
  rw [isPySpace_iff] at hcon
  omega

theorem ne_space_of_alnum {c : Char} (h : isAsciiAlnum c = true) : c ≠ ' ' := by
  rw [isAsciiAlnum_iff] at h
  intro hcon
  rw [eq_space_iff] at hcon
  omega

theorem space_pyspace : isPySpace ' ' = true := by decide

theorem cn_pyLowerChar (c : Char) :
    cn (pyLowerChar c) =
      if 65 ≤ cn c ∧ cn c ≤ 90 then cn c + 32 else cn c := by
  unfold pyLowerChar
  split
  next h => exact charToNat_ofNat (by omega)
  next h => rfl

theorem pyLowerChar_space_iff {c : Char} : pyLowerChar c = ' ' ↔ c = ' ' := by
  rw [eq_space_iff, eq_space_iff, cn_pyLowerChar]
  split <;> omega

theorem goodChar_pyLowerChar {c : Char}
    (h : isAsciiAlnum c = true ∨ c = ' ') : GoodChar (pyLowerChar c) := by
  unfold GoodChar
  rw [cn_pyLowerChar]
  rcases h with h | h
  · rw [isAsciiAlnum_iff] at h
    split <;> omega
  · rw [eq_space_iff] at h
    split <;> omega

theorem pyLowerChar_id_of_good {c : Char} (h : GoodChar c) : pyLowerChar c = c := by
  unfold pyLowerChar
  rw [if_neg]
  unfold GoodChar at h
  omega

theorem goodChar_cases {c : Char} (h : GoodChar c) :
    isAsciiAlnum c = true ∨ c = ' ' := by
  unfold GoodChar at h
  rcases h with h | h | h
  · left; rw [isAsciiAlnum_iff]; omega
  · left; rw [isAsciiAlnum_iff]; omega
  · right; rw [eq_space_iff]; exact h

/-! ### The forward direction: what normalize_text produces -/

theorem toAlnumSpace_chars (l : List Char) :
    ∀ c ∈ toAlnumSpace l, isAsciiAlnum c = true ∨ isPySpace c = true := by
  intro c hc
  unfold toAlnumSpace at hc
  rw [List.mem_map] at hc
  obtain ⟨a, -, ha⟩ := hc
  by_cases hcond : (isAsciiAlnum a || isPySpace a) = true
  · rw [if_pos hcond] at ha
    subst ha
    simpa using hcond
  · rw [if_neg hcond] at ha
    subst ha
    right
    exact space_pyspace

theorem collapseGo_good (l : List Char)
    (hl : ∀ c ∈ l, isAsciiAlnum c = true ∨ isPySpace c = true) :
    ∀ b, (∀ c ∈ collapseGo b l, isAsciiAlnum c = true ∨ c = ' ') ∧
      NoTwo (collapseGo b l) ∧
      (b = true → (collapseGo b l).head? ≠ some ' ') := by
  induction l with
  | nil =>
    intro b
    refine ⟨by simp [collapseGo], ?_, by simp [collapseGo]⟩
    unfold collapseGo NoTwo
    simp
  | cons c cs ih =>
    have hc := hl c (List.mem_cons_self _ _)
    have hcs : ∀ x ∈ cs, isAsciiAlnum x = true ∨ isPySpace x = true :=
      fun x hx => hl x (List.mem_cons_of_mem _ hx)
    intro b
    by_cases hsp : isPySpace c = true
    · rcases b with _ | _
      · have hrec := (ih hcs) true
        refine ⟨?_, ?_, ?_⟩
        · intro x hx
          rw [show collapseGo false (c :: cs) = ' ' :: collapseGo true cs from by
            simp [collapseGo, hsp]] at hx
          rcases List.mem_cons.mp hx with h | h
          · right; exact h
          · exact hrec.1 x h
        · rw [show collapseGo false (c :: cs) = ' ' :: collapseGo true cs from by
            simp [collapseGo, hsp]]
          unfold NoTwo
          rw [List.chain'_cons']
          refine ⟨?_, hrec.2.1⟩
          intro y hy
          intro hcon
          have := hrec.2.2 rfl
          rw [hy] at this
          exact this (by rw [hcon.2])
        · intro hcon
          cases hcon
      · have hrec := (ih hcs) true
        rw [show collapseGo true (c :: cs) = collapseGo true cs from by
          simp [collapseGo, hsp]]
        exact ⟨hrec.1, hrec.2.1, fun _ => hrec.2.2 rfl⟩
    · have halnum : isAsciiAlnum c = true := by
        rcases hc with h | h
        · exact h
        · exact absurd h hsp
      have hrec := (ih hcs) false
      have hshape : ∀ b, collapseGo b (c :: cs) = c :: collapseGo false cs := by
        intro b
        rcases b with _ | _ <;>
          (simp [collapseGo, hsp])
      refine ⟨?_, ?_, ?_⟩
      · intro x hx
        rw [hshape b] at hx
        rcases List.mem_cons.mp hx with h | h
        · left; rw [h]; exact halnum
        · exact hrec.1 x h
      · rw [hshape b]
        unfold NoTwo
        rw [List.chain'_cons']
        refine ⟨?_, hrec.2.1⟩
        intro y hy hcon
        exact ne_space_of_alnum halnum hcon.1
      · intro hb
        rw [hshape b]
        simp only [List.head?_cons]
        intro hcon
        rw [Option.some.injEq] at hcon
        exact ne_space_of_alnum halnum hcon

theorem pyStripL_sub {l : List Char} : ∀ c ∈ pyStripL l, c ∈ l := by
  intro c hc
  unfold pyStripL at hc
  rw [List.mem_reverse] at hc
  have h1 := (List.dropWhile_suffix isPySpace).sublist.subset hc
  rw [List.mem_reverse] at h1
  exact (List.dropWhile_suffix isPySpace).sublist.subset h1

theorem noTwo_reverse {l : List Char} (h : NoTwo l) : NoTwo l.reverse := by
  unfold NoTwo at *
  rw [List.chain'_reverse]
  exact h.imp (fun a b hab hcon => hab ⟨hcon.2, hcon.1⟩)

theorem pyStripL_noTwo {l : List Char} (h : NoTwo l) : NoTwo (pyStripL l) := by
  unfold pyStripL
  apply noTwo_reverse
  apply List.Chain'.suffix _ (List.dropWhile_suffix isPySpace)
  apply noTwo_reverse
  exact List.Chain'.suffix h (List.dropWhile_suffix isPySpace)

theorem head?_dropWhile_ne_space (l : List Char) :
    (l.dropWhile isPySpace).head? ≠ some ' ' := by
  intro hcon
  have h := List.head?_dropWhile_not isPySpace l
  rw [hcon] at h
  simp only [] at h
  rw [space_pyspace] at h
  cases h

theorem pyStripL_last {l : List Char} : (pyStripL l).getLast? ≠ some ' ' := by
  unfold pyStripL
  rw [List.getLast?_reverse]
  exact head?_dropWhile_ne_space _

theorem pyStripL_head {l : List Char} : (pyStripL l).head? ≠ some ' ' := by
  unfold pyStripL
  rw [List.head?_reverse]
  rcases hY : (l.dropWhile isPySpace).reverse.dropWhile isPySpace with _ | ⟨y, Y'⟩
  · simp
  · obtain ⟨t, ht⟩ := List.dropWhile_suffix
      (l := (l.dropWhile isPySpace).reverse) (p := isPySpace)
    rw [hY] at ht
    have hlast : ((l.dropWhile isPySpace).reverse).getLast? = (y :: Y').getLast? := by
      rw [← ht, List.getLast?_append]
      have : (y :: Y').getLast?.isSome := by
        simp [List.getLast?_isSome]
      rcases hg : (y :: Y').getLast? with _ | g
      · rw [hg] at this
        cases this
      · rfl
    rw [← hlast, List.getLast?_reverse]
    exact head?_dropWhile_ne_space _

theorem lowerL_good {l : List Char}
    (h : ∀ c ∈ l, isAsciiAlnum c = true ∨ c = ' ') :
    ∀ c ∈ lowerL l, GoodChar c := by
  intro c hc
  unfold lowerL at hc
  rw [List.mem_map] at hc
  obtain ⟨a, ha, rfl⟩ := hc
  exact goodChar_pyLowerChar (h a ha)

theorem lowerL_noTwo {l : List Char} (h : NoTwo l) : NoTwo (lowerL l) := by
  unfold lowerL NoTwo at *
  rw [List.chain'_map]
  exact h.imp (fun a b hab hcon =>
    hab ⟨pyLowerChar_space_iff.mp hcon.1, pyLowerChar_space_iff.mp hcon.2⟩)

theorem lowerL_head {l : List Char} (h : l.head? ≠ some ' ') :
    (lowerL l).head? ≠ some ' ' := by
  unfold lowerL
  rw [List.head?_map]
  intro hcon
  rcases hh : l.head? with _ | c
  · rw [hh] at hcon
    cases hcon
  · rw [hh] at hcon
    simp at hcon
    exact h (by rw [hh, pyLowerChar_space_iff.mp hcon])

theorem lowerL_last {l : List Char} (h : l.getLast? ≠ some ' ') :
    (lowerL l).getLast? ≠ some ' ' := by
  unfold lowerL
  rw [List.getLast?_map]
  intro hcon
  rcases hh : l.getLast? with _ | c
  · rw [hh] at hcon
    cases hcon
  · rw [hh] at hcon
    simp at hcon
    exact h (by rw [hh, pyLowerChar_space_iff.mp hcon])

/-- Everything normalize_text produces: only lowercase ASCII letters,
digits and spaces; no two adjacent spaces; no leading or trailing
space. -/
theorem normalize_text_good (s : String) :
    (∀ c ∈ (normalize_text s).toList, GoodChar c) ∧
    NoTwo (normalize_text s).toList ∧
    (normalize_text s).toList.head? ≠ some ' ' ∧
    (normalize_text s).toList.getLast? ≠ some ' ' := by
  have hlist : (normalize_text s).toList =
      lowerL (pyStripL (collapseWs (toAlnumSpace (replChars (stripUrls s.toList))))) :=
    rfl
  rw [hlist]
  have h3 := toAlnumSpace_chars (replChars (stripUrls s.toList))
  have h4 := collapseGo_good _ h3 false
  have h5chars : ∀ c ∈ pyStripL (collapseWs (toAlnumSpace (replChars (stripUrls s.toList)))),
      isAsciiAlnum c = true ∨ c = ' ' :=
    fun c hc => h4.1 c (pyStripL_sub c hc)
  have h5two : NoTwo (pyStripL (collapseWs (toAlnumSpace (replChars (stripUrls s.toList))))) :=
    pyStripL_noTwo h4.2.1
  exact ⟨lowerL_good h5chars, lowerL_noTwo h5two,
    lowerL_head pyStripL_head, lowerL_last pyStripL_last⟩

/-! ### The backward direction: normalize_text fixes its own output -/

theorem eq_iff_cn {c d : Char} : c = d ↔ cn c = cn d :=
  ⟨fun h => by rw [h], char_eq_of_cn_eq⟩

theorem colon_not_good {c : Char} (h : GoodChar c) : cn c ≠ 58 := by
  unfold GoodChar at h
  omega

theorem mem_of_isPrefixOf {p l : List Char} {c : Char}
    (h : p.isPrefixOf l = true) (hc : c ∈ p) : c ∈ l := by
  rw [List.isPrefixOf_iff_prefix] at h
  exact h.sublist.subset hc

theorem urlProtoLen_none {l : List Char} (h : ∀ c ∈ l, cn c ≠ 58) :
    urlProtoLen l = none := by
  unfold urlProtoLen
  rw [if_neg, if_neg]
  · intro hcon
    exact h ':' (mem_of_isPrefixOf hcon (by decide)) (by decide)
  · intro hcon
    exact h ':' (mem_of_isPrefixOf hcon (by decide)) (by decide)

theorem stripUrlsGo_id {l : List Char} (h : ∀ c ∈ l, cn c ≠ 58) :
    stripUrlsGo none l = l := by
  induction l with
  | nil => rfl
  | cons c cs ih =>
    have hU : urlProtoLen (c :: cs) = none := urlProtoLen_none h
    rw [show stripUrlsGo none (c :: cs) =
        (match urlProtoLen (c :: cs) with
          | some n => ' ' :: stripUrlsGo (some (n - 1)) cs
          | none => c :: stripUrlsGo none cs) from rfl]
    rw [hU]
    rw [ih (fun x hx => h x (List.mem_cons_of_mem _ hx))]

theorem map_id_of_fixed {f : Char → Char} :
    ∀ (l : List Char), (∀ c ∈ l, f c = c) → l.map f = l := by
  intro l h
  induction l with
  | nil => rfl
  | cons c cs ih =>
    simp only [List.map_cons]
    rw [h c (List.mem_cons_self _ _), ih (fun x hx => h x (List.mem_cons_of_mem _ hx))]

theorem replChars_id {l : List Char} (h : ∀ c ∈ l, GoodChar c) :
    replChars l = l := by
  apply map_id_of_fixed
  intro c hc
  have hg := h c hc
  unfold GoodChar at hg
  rw [if_neg, if_neg]
  · rw [eq_iff_cn]
    show ¬ (cn c = 8217)
    omega
  · rw [eq_iff_cn]
    show ¬ (cn c = 35)
    omega

theorem toAlnumSpace_id {l : List Char} (h : ∀ c ∈ l, GoodChar c) :
    toAlnumSpace l = l := by
  apply map_id_of_fixed
  intro c hc
  rw [if_pos]
  rcases goodChar_cases (h c hc) with ha | ha
  · simp [ha]
  · rw [ha]
    simp [space_pyspace]

theorem good_pyspace_iff {c : Char} (h : GoodChar c) :
    isPySpace c = true ↔ c = ' ' := by
  rw [isPySpace_iff, eq_space_iff]
  unfold GoodChar at h
  omega

theorem collapseGo_id {l : List Char} (hg : ∀ c ∈ l, GoodChar c) (h2 : NoTwo l) :
    collapseGo false l = l ∧ (l.head? ≠ some ' ' → collapseGo true l = l) := by
  induction l with
  | nil => exact ⟨rfl, fun _ => rfl⟩
  | cons c cs ih =>
    have hgc := hg c (List.mem_cons_self _ _)
    have hgcs : ∀ x ∈ cs, GoodChar x := fun x hx => hg x (List.mem_cons_of_mem _ hx)
    obtain ⟨hR, h2cs⟩ := List.chain'_cons'.mp h2
    have ihr := ih hgcs h2cs
    by_cases hsp : c = ' '
    · subst hsp
      have hhead : cs.head? ≠ some ' ' := by
        intro hcon
        rcases hh : cs.head? with _ | y
        · rw [hh] at hcon
          cases hcon
        · rw [hh] at hcon
          rw [Option.some.injEq] at hcon
          exact hR y hh ⟨rfl, hcon⟩
      constructor
      · rw [show collapseGo false (' ' :: cs) = ' ' :: collapseGo true cs from by
          simp [collapseGo, space_pyspace]]
        rw [ihr.2 hhead]
      · intro hcon
        exact absurd (show (' ' :: cs).head? = some ' ' from rfl) hcon
    · have halnum : isAsciiAlnum c = true := (goodChar_cases hgc).resolve_right hsp
      have hnsp : isPySpace c = false := not_pyspace_of_alnum halnum
      have hshape : ∀ b, collapseGo b (c :: cs) = c :: collapseGo false cs := by
        intro b
        rcases b with _ | _ <;> simp [collapseGo, hnsp]
      exact ⟨by rw [hshape false, ihr.1], fun _ => by rw [hshape true, ihr.1]⟩

theorem dropWhile_id_of_head {l : List Char}
    (hg : ∀ c ∈ l, GoodChar c) (h : l.head? ≠ some ' ') :
    l.dropWhile isPySpace = l := by
  cases l with
  | nil => rfl
  | cons c cs =>
    apply List.dropWhile_cons_of_neg
    intro hcon
    have := (good_pyspace_iff (hg c (List.mem_cons_self _ _))).mp hcon
    rw [this] at h
    exact h rfl

theorem pyStripL_id {l : List Char} (hg : ∀ c ∈ l, GoodChar c)
    (hh : l.head? ≠ some ' ') (hl : l.getLast? ≠ some ' ') :
    pyStripL l = l := by
  unfold pyStripL
  rw [dropWhile_id_of_head hg hh]
  have hgr : ∀ c ∈ l.reverse, GoodChar c := by
    intro c hc
    rw [List.mem_reverse] at hc
    exact hg c hc
  rw [dropWhile_id_of_head hgr (by rw [List.head?_reverse]; exact hl)]
  exact List.reverse_reverse l

theorem lowerL_id {l : List Char} (hg : ∀ c ∈ l, GoodChar c) : lowerL l = l :=
  map_id_of_fixed l (fun c hc => pyLowerChar_id_of_good (hg c hc))

/-- Claim C10: text normalisation is idempotent, and its output contains
only lowercase ASCII letters, digits and single separating spaces, with
no leading or trailing whitespace. -/
theorem c10_normalize_idempotent (s : String) :
    normalize_text (normalize_text s) = normalize_text s ∧
    (∀ c ∈ (normalize_text s).toList,
      (97 ≤ cn c ∧ cn c ≤ 122) ∨ (48 ≤ cn c ∧ cn c ≤ 57) ∨ cn c = 32) ∧
    List.Chain' (fun a b => ¬(a = ' ' ∧ b = ' ')) (normalize_text s).toList ∧
    (normalize_text s).toList.head? ≠ some ' ' ∧
    (normalize_text s).toList.getLast? ≠ some ' ' := by
  obtain ⟨hg, h2, hh, hl⟩ := normalize_text_good s
  refine ⟨?_, hg, h2, hh, hl⟩
  have e0 : normalize_text (normalize_text s) =
      String.mk (lowerL (pyStripL (collapseWs (toAlnumSpace
        (replChars (stripUrls (normalize_text s).toList)))))) := rfl
  have e1 : stripUrls (normalize_text s).toList = (normalize_text s).toList :=
    stripUrlsGo_id (fun c hc => colon_not_good (hg c hc))
  have e2 := replChars_id hg
  have e3 := toAlnumSpace_id hg
  have e4 : collapseWs (normalize_text s).toList = (normalize_text s).toList :=
    (collapseGo_id hg h2).1
  have e5 := pyStripL_id hg hh hl
  have e6 := lowerL_id hg
  rw [e0, e1, e2, e3, e4, e5, e6]
  rfl

end Poster
